import Mathlib

/-!
# CS2 inventory manager (`yeni.cpp`): embedding and verified properties

The program keeps a catalog of products (`std::vector<Product>`), a global
`dollarRate`, and two text files.  The embedding below follows `yeni.cpp`
function by function:

* `double` is modelled by `Double`: a sign, a natural mantissa and a binary
  exponent (every binary64 value is of this form), plus the infinities and NaN.
  Comparison, multiplication (round to nearest, ties to even), the two
  number-to-text conversions used by the program (`std::fixed` with
  `std::setprecision(n)`, and the stream default with six significant digits)
  and the text-to-number conversion of `operator>>` are defined on this
  representation with integer arithmetic only. Text is produced from the exact
  binary value, ties to even, as `printf` does; NaN is written `nan`.
  Extraction accepts a sign, digits, a point, digits and an exponent, and fails
  on anything else at the start of the number and on overflow.
* `std::string` and file contents are `List Char`; a file that cannot be opened
  for writing is left as it is.
* Console input is modelled at the level of the values that the extraction
  operators deliver; the console output that matters is kept as an `Outcome`
  (the last status line printed) or, for `displayPrices` and `listProducts`, as
  the printed lines.
* Loading gives `none` where an extraction fails: the program then goes on with
  fields that the file does not determine.
* Of `main`, the menu loop and the two saves after it are embedded (`shell`);
  it starts from the state the two loads leave.
-/

namespace CS2

/-! ## The `double` type -/

/-- A `double`: `finite neg m e` is the value `(-1)^neg * m * 2^e`. The binary64
values are those with `m < 2^53` and `-1074 ≤ e ≤ 971`. -/
inductive Double where
  | finite (neg : Bool) (m : Nat) (e : Int)
  | inf (neg : Bool)
  | nan
  deriving DecidableEq

namespace Double

/-- The literal `0.0`. -/
def zero : Double := finite false 0 0

/-- The literal `1.0`. -/
def one : Double := finite false 1 0

/-- Whether the value is representable in binary64 (all constructors other than
`finite` are). -/
def isBinary64 : Double → Bool
  | finite _ m e => decide (m < 2 ^ 53) && decide (-1074 ≤ e) && decide (e ≤ 971)
  | _ => true

/-- Whether the value is a finite number. -/
def isFinite : Double → Bool
  | finite _ _ _ => true
  | _ => false

/-- Whether the value is NaN. -/
def isNaN : Double → Bool
  | nan => true
  | _ => false

/-- The signed integer `(-1)^neg * m * 2^(e - b)`, for a common exponent `b ≤ e`. -/
def key (neg : Bool) (m : Nat) (e b : Int) : Int :=
  let v : Int := ((m * 2 ^ (e - b).toNat : Nat) : Int)
  if neg then -v else v

/-- The C++ `x < y` on doubles (false as soon as one side is NaN). -/
def lt : Double → Double → Bool
  | finite n1 m1 e1, finite n2 m2 e2 =>
      decide (key n1 m1 e1 (min e1 e2) < key n2 m2 e2 (min e1 e2))
  | finite _ _ _, inf n2 => !n2
  | inf n1, finite _ _ _ => n1
  | inf n1, inf n2 => n1 && !n2
  | nan, _ => false
  | _, nan => false

/-- The C++ `x <= y` on doubles (false as soon as one side is NaN). -/
def le : Double → Double → Bool
  | finite n1 m1 e1, finite n2 m2 e2 =>
      decide (key n1 m1 e1 (min e1 e2) ≤ key n2 m2 e2 (min e1 e2))
  | finite _ _ _, inf n2 => !n2
  | inf n1, finite _ _ _ => n1
  | inf n1, inf n2 => n1 || !n2
  | nan, _ => false
  | _, nan => false

/-- The C++ `x > y`. -/
def gt (x y : Double) : Bool := lt y x

end Double

/-! ## Rounding -/

/-- The integer nearest to `num / den`, ties to the even one (`den > 0`). -/
def roundHalfEven (num den : Nat) : Nat :=
  let q := num / den
  let r := num % den
  if 2 * r < den then q
  else if den < 2 * r then q + 1
  else if q % 2 = 0 then q else q + 1

/-- Bit length minus one, by repeated halving (`fuel` bounds the number of steps). -/
def log2Aux : Nat → Nat → Nat
  | 0, _ => 0
  | fuel + 1, n => if n < 2 then 0 else log2Aux fuel (n / 2) + 1

/-- The integer part of the binary logarithm of `n` (`0` for `n = 0`). -/
def log2 (n : Nat) : Nat := log2Aux n n

/-- The integer part of the binary logarithm of `num / den` (`num, den > 0`). -/
def floorLog2 (num den : Nat) : Int :=
  let k : Int := (log2 num : Int) - (log2 den : Int)
  if 0 ≤ k then
    if den * 2 ^ k.toNat ≤ num then k else k - 1
  else
    if den ≤ num * 2 ^ (-k).toNat then k else k - 1

/-- The comparison `2^l ≤ num / den`, without division. -/
def expLe (num den : Nat) (l : Int) : Prop :=
  den * 2 ^ l.toNat ≤ num * 2 ^ (-l).toNat

/-- The binary64 value nearest to `(-1)^neg * num / den` (`den > 0`), ties to even;
gradual underflow below `2^-1022`, infinity from `2^1024` on. -/
def roundToDouble (neg : Bool) (num den : Nat) : Double :=
  if num = 0 then Double.finite neg 0 0
  else
    let l := floorLog2 num den
    let e := max (l - 52) (-1074)
    let m :=
      if 0 ≤ e then roundHalfEven num (den * 2 ^ e.toNat)
      else roundHalfEven (num * 2 ^ (-e).toNat) den
    let m1 := if m = 2 ^ 53 then 2 ^ 52 else m
    let e1 := if m = 2 ^ 53 then e + 1 else e
    if m1 = 0 then Double.finite neg 0 0
    else if 971 < e1 then Double.inf neg
    else Double.finite neg m1 e1

/-- The binary64 value nearest to `(-1)^neg * m * 2^e`. -/
def roundDyadic (neg : Bool) (m : Nat) (e : Int) : Double :=
  if 0 ≤ e then roundToDouble neg (m * 2 ^ e.toNat) 1
  else roundToDouble neg m (2 ^ (-e).toNat)

/-- The value a decimal literal `digits * 10^exp10` denotes as a `double`. -/
def ofDecimal (neg : Bool) (digits : Nat) (exp10 : Int) : Double :=
  if 0 ≤ exp10 then roundToDouble neg (digits * 10 ^ exp10.toNat) 1
  else roundToDouble neg digits (10 ^ (-exp10).toNat)

namespace Double

/-- The C++ `x * y` on doubles. -/
def mul : Double → Double → Double
  | finite n1 m1 e1, finite n2 m2 e2 => roundDyadic (xor n1 n2) (m1 * m2) (e1 + e2)
  | finite n1 m1 _, inf n2 => if m1 = 0 then nan else inf (xor n1 n2)
  | inf n1, finite n2 m2 _ => if m2 = 0 then nan else inf (xor n1 n2)
  | inf n1, inf n2 => inf (xor n1 n2)
  | nan, _ => nan
  | _, nan => nan

end Double

/-! ## Numbers as text -/

/-- The character of a decimal digit `d < 10`. -/
def digitChar (d : Nat) : Char := Char.ofNat (48 + d % 10)

/-- Decimal digits of `n`, most significant first, in front of `acc`. -/
def natDigitsAux : Nat → Nat → List Char → List Char
  | 0, _, acc => acc
  | fuel + 1, n, acc =>
      if n / 10 = 0 then digitChar n :: acc
      else natDigitsAux fuel (n / 10) (digitChar n :: acc)

/-- The decimal numeral of `n` (`"0"` for zero). -/
def natDigits (n : Nat) : List Char := natDigitsAux (n + 1) n []

/-- The last `width` decimal digits of `n`, with leading zeros. -/
def fracDigits : Nat → Nat → List Char
  | 0, _ => []
  | width + 1, n => fracDigits width (n / 10) ++ [digitChar n]

/-- The sign that `printf` puts in front of a negative value. -/
def signChars (neg : Bool) : List Char := if neg then ['-'] else []

/-- The integer nearest to `m * 2^e * 10^prec`, ties to even. -/
def scaledRound (prec : Nat) (m : Nat) (e : Int) : Nat :=
  roundHalfEven (m * 10 ^ prec * 2 ^ e.toNat) (2 ^ (-e).toNat)

/-- The text of `os << std::fixed << std::setprecision(prec) << x`. -/
def fmtFixed (prec : Nat) : Double → List Char
  | Double.finite neg m e =>
      let n := scaledRound prec m e
      signChars neg ++ natDigits (n / 10 ^ prec) ++
        (if prec = 0 then [] else '.' :: fracDigits prec (n % 10 ^ prec))
  | Double.inf neg => signChars neg ++ ['i', 'n', 'f']
  | Double.nan => ['n', 'a', 'n']

/-- Number of decimal digits minus one, by repeated division by ten. -/
def log10Aux : Nat → Nat → Nat
  | 0, _ => 0
  | fuel + 1, n => if n < 10 then 0 else log10Aux fuel (n / 10) + 1

/-- The integer part of the decimal logarithm of `n` (`0` for `n = 0`). -/
def log10 (n : Nat) : Nat := log10Aux n n

/-- The least `j ≥ k` with `den ≤ num * 10^j`, searched for `fuel` steps. -/
def negExp10 : Nat → Nat → Nat → Nat → Nat
  | 0, _, _, k => k
  | fuel + 1, num, den, k =>
      if den ≤ num * 10 ^ k then k else negExp10 fuel num den (k + 1)

/-- The integer part of the decimal logarithm of `num / den` (`num, den > 0`). -/
def floorLog10 (num den : Nat) : Int :=
  if den ≤ num then (log10 (num / den) : Int)
  else -(negExp10 den num den 1 : Int)

/-- The integer nearest to `(num / den) / 10^(x - 5)`, ties to even: the six
significant digits of a value whose decimal exponent is `x`. -/
def sigRound (num den : Nat) (x : Int) : Nat :=
  if 5 ≤ x then roundHalfEven num (den * 10 ^ (x - 5).toNat)
  else roundHalfEven (num * 10 ^ (5 - x).toNat) den

/-- Removal of the trailing zeros of a digit string. -/
def stripZeros (ds : List Char) : List Char :=
  (ds.reverse.dropWhile (fun c => c == '0')).reverse

/-- The fractional part as printed without the `#` flag: nothing when no digit
is left, else the decimal point and the digits. -/
def pointFrac (fp : List Char) : List Char :=
  match fp with
  | [] => []
  | c :: cs => '.' :: c :: cs

/-- The digits of `n * 10^(-d)` with trailing zeros removed. -/
def generalBody (d n : Nat) : List Char :=
  natDigits (n / 10 ^ d) ++ pointFrac (stripZeros (fracDigits d (n % 10 ^ d)))

/-- The exponent digits of the scientific style: at least two. -/
def expDigits (k : Nat) : List Char :=
  if k < 10 then ['0', digitChar k] else natDigits k

/-- The decimal exponent of `num / den` once rounded to six significant digits:
that of the value, or one more when the rounding carries to the next power of
ten. -/
def decimalExponent (num den : Nat) : Int :=
  if sigRound num den (floorLog10 num den) = 10 ^ 6 then floorLog10 num den + 1
  else floorLog10 num den

/-- The six significant digits of `num / den`, as a number between `10^5` and
`10^6 - 1`. -/
def sixDigits (num den : Nat) : Nat :=
  if sigRound num den (floorLog10 num den) = 10 ^ 6 then 10 ^ 5
  else sigRound num den (floorLog10 num den)

/-- The text of `os << x` on a fresh stream: the default float format with six
significant digits (`%g`): fixed style when the decimal exponent `x` of the
rounded value satisfies `-4 ≤ x < 6`, scientific style otherwise, trailing
zeros removed in both. -/
def fmtDefault : Double → List Char
  | Double.finite neg m e =>
      if m = 0 then signChars neg ++ ['0']
      else
        let num := m * 2 ^ e.toNat
        let den := 2 ^ (-e).toNat
        let x := decimalExponent num den
        let n := sixDigits num den
        if -4 ≤ x ∧ x < 6 then
          signChars neg ++ generalBody (5 - x).toNat n
        else
          signChars neg ++ generalBody 5 n ++
            'e' :: (if x < 0 then '-' else '+') :: expDigits x.natAbs
  | Double.inf neg => signChars neg ++ ['i', 'n', 'f']
  | Double.nan => ['n', 'a', 'n']

/-- The largest finite binary64 value, `(2^53 - 1) * 2^971`. -/
def maxFinite : Nat := (2 ^ 53 - 1) * 2 ^ 971

/-- The largest number the default format can write for a finite binary64
value: `1.79769e+308`. -/
def readBound : Nat := 179769 * 10 ^ 303

/-! ## Text as numbers: `operator>>` -/

/-- The C locale `isspace`. -/
def isSpace (c : Char) : Bool :=
  c == ' ' || c == '\t' || c == '\n' || c == '\x0b' || c == '\x0c' || c == '\r'

/-- A decimal digit. -/
def isDigit (c : Char) : Bool := decide ('0' ≤ c) && decide (c ≤ '9')

/-- The number a digit string denotes. -/
def digitsValue (ds : List Char) : Nat :=
  ds.foldl (fun a c => 10 * a + (c.toNat - 48)) 0

/-- An optional sign in front of a number: whether it is `-`, and the rest. -/
def takeSign (s : List Char) : Bool × List Char :=
  match s with
  | '-' :: t => (true, t)
  | '+' :: t => (false, t)
  | _ => (false, s)

/-- The conversion at the end of an extraction, for the decimal number
`digits * 10^exp10` that was read: the nearest `double`, or failure when the
number is too large for one. -/
def convert (neg : Bool) (digits : Nat) (exp10 : Int) (rest : List Char) :
    Option (Double × List Char) :=
  match ofDecimal neg digits exp10 with
  | Double.finite n m e => some (Double.finite n m e, rest)
  | _ => none

/-- The text `is >> x` reads for a `double x`, after the sign: integer digits,
an optional point with fraction digits, an optional exponent. `none` is a failed
extraction (no mantissa digit, an exponent mark without digits, overflow). -/
def extractUnsigned (neg : Bool) (s1 : List Char) : Option (Double × List Char) :=
  let ip := s1.takeWhile isDigit
  let s2 := s1.dropWhile isDigit
  let fp := match s2 with
    | '.' :: t => t.takeWhile isDigit
    | _ => []
  let s3 := match s2 with
    | '.' :: t => t.dropWhile isDigit
    | _ => s2
  if ip = [] ∧ fp = [] then none
  else
    match s3 with
    | c :: t =>
        if c = 'e' ∨ c = 'E' then
          let ed := (takeSign t).2.takeWhile isDigit
          if ed = [] then none
          else
            let k : Int := (digitsValue ed : Int)
            convert neg (digitsValue (ip ++ fp))
              ((if (takeSign t).1 then -k else k) - (fp.length : Int))
              ((takeSign t).2.dropWhile isDigit)
        else convert neg (digitsValue (ip ++ fp)) (0 - (fp.length : Int)) s3
    | [] => convert neg (digitsValue (ip ++ fp)) (0 - (fp.length : Int)) s3

/-- The formatted extraction `is >> x` for a `double x`: skips white space, reads
the longest text of a number, converts it; gives the value and the unread rest
of the stream, or `none` when the extraction fails. -/
def extractDouble (s : List Char) : Option (Double × List Char) :=
  let s0 := s.dropWhile isSpace
  extractUnsigned (takeSign s0).1 (takeSign s0).2

/-- The characters a number printed with `std::fixed` can hold. -/
def isFixedChar (c : Char) : Bool :=
  isDigit c || c == '-' || c == '.' || c == 'i' || c == 'n' || c == 'f' || c == 'a'

/-- What follows a number in a saved file: the end of the text or a newline. -/
def atLineEnd : List Char → Bool
  | [] => true
  | c :: _ => c == '\n'

/-- The `double` nearest to `x` rounded to six significant decimal digits: what
a value written in the default format denotes. -/
def Double.sixDigitValue : Double → Double
  | Double.finite neg m e =>
      if m = 0 then Double.finite neg 0 0
      else
        ofDecimal neg (sixDigits (m * 2 ^ e.toNat) (2 ^ (-e).toNat))
          (decimalExponent (m * 2 ^ e.toNat) (2 ^ (-e).toNat) - 5)
  | x => x

/-- A finite binary64 value: what the program can hold after reading a number. -/
def Double.isStorable (x : Double) : Bool := x.isFinite && x.isBinary64

/-! ## `class Product` -/

/-- The data members of `Product`. -/
structure Product where
  name : List Char
  basePrice : Double
  csfloatPrice : Double
  bynogamePrice : Double
  specialValue : Double
  deriving DecidableEq

namespace Product

/-- The parameterized constructor `Product(name, basePrice, specialValue)`. -/
def new (name : List Char) (basePrice specialValue : Double) : Product :=
  { name := name, basePrice := basePrice, csfloatPrice := Double.zero,
    bynogamePrice := Double.zero, specialValue := specialValue }

/-- `Product::calculateSellingPrices`. -/
def calculateSellingPrices (p : Product)
    (csfloatMultiplier bynogameMultiplier dollarRate : Double) : Product :=
  { p with
    csfloatPrice := Double.mul p.basePrice csfloatMultiplier
    bynogamePrice := Double.mul (Double.mul p.basePrice bynogameMultiplier) dollarRate }

/-- `Product::displayPrices`: the five lines written to `std::cout`. The
precision set for the special value stays in force for the two prices. -/
def displayPrices (p : Product) : List (List Char) :=
  [ "Product: ".toList ++ p.name,
    "Base Price: $".toList ++ fmtFixed 3 p.basePrice,
    "Special Value: ".toList ++ fmtFixed 5 p.specialValue,
    "Selling price for CSFloat: $".toList ++ fmtFixed 5 p.csfloatPrice,
    "Selling price for ByNoGame: ".toList ++ fmtFixed 5 p.bynogamePrice ++ "TL".toList ]

/-- `Product::getUniqueKey`: the name, an underscore, the special value with
seven decimals. -/
def getUniqueKey (p : Product) : List Char :=
  p.name ++ '_' :: fmtFixed 7 p.specialValue

/-- `Product::saveToFile`: the three lines of a record. -/
def saveToFile (p : Product) : List Char :=
  p.name ++ '\n' :: (fmtDefault p.basePrice ++ '\n' :: (fmtDefault p.specialValue ++ ['\n']))

end Product

/-! ## Streams and files -/

/-- `std::getline(is, line)`: the characters before the first newline, and the
stream after that newline. -/
def getline (s : List Char) : List Char × List Char :=
  (s.takeWhile (fun c => c != '\n'), (s.dropWhile (fun c => c != '\n')).drop 1)

/-- `is.ignore(max, newline)`: the stream after the next newline. -/
def ignoreLine (s : List Char) : List Char :=
  (s.dropWhile (fun c => c != '\n')).drop 1

/-- `Product::loadFromFile`: a line for the name, two numbers, the rest of the
line dropped. `none` when an extraction fails; the fields of the record the
program builds then are not determined by the file. -/
def Product.loadFromFile (s : List Char) : Option (Product × List Char) :=
  match extractDouble (getline s).2 with
  | none => none
  | some (basePrice, s2) =>
      match extractDouble s2 with
      | none => none
      | some (specialValue, s3) =>
          some (Product.new (getline s).1 basePrice specialValue, ignoreLine s3)

/-- The two files and whether each can be opened for writing. A file that does
not exist has no contents. -/
structure Files where
  catalogFile : Option (List Char)
  rateFile : Option (List Char)
  catalogWritable : Bool
  rateWritable : Bool
  deriving DecidableEq

/-- The text `saveCatalogToFile` writes: the records in catalog order. -/
def catalogText : List Product → List Char
  | [] => []
  | product :: rest => product.saveToFile ++ catalogText rest

/-- `saveCatalogToFile`: replaces the catalog file by the text of the catalog,
or does nothing when the file cannot be opened. -/
def saveCatalogToFile (productCatalog : List Product) (fs : Files) : Files :=
  if fs.catalogWritable then { fs with catalogFile := some (catalogText productCatalog) }
  else fs

/-- The loop of `loadCatalogFromFile`: while the stream is not at its end, read
a record and push it. `fuel` bounds the number of rounds. -/
def loadLoop : Nat → List Char → List Product → Option (List Product)
  | 0, _, _ => none
  | fuel + 1, s, productCatalog =>
      match s with
      | [] => some productCatalog
      | c :: cs =>
          match Product.loadFromFile (c :: cs) with
          | none => none
          | some (product, s1) => loadLoop fuel s1 (productCatalog ++ [product])

/-- `loadCatalogFromFile`: the catalog after loading; unchanged when the file
cannot be opened. Each round consumes at least one character, so the length
of the text bounds the number of rounds. -/
def loadCatalogFromFile (productCatalog : List Product) (fs : Files) :
    Option (List Product) :=
  match fs.catalogFile with
  | none => some productCatalog
  | some s => loadLoop (s.length + 1) s productCatalog

/-- `saveDollarRate`: replaces the rate file by the rate and a newline, or does
nothing when the file cannot be opened. -/
def saveDollarRate (dollarRate : Double) (fs : Files) : Files :=
  if fs.rateWritable then { fs with rateFile := some (fmtDefault dollarRate ++ ['\n']) }
  else fs

/-! ## The operations -/

/-- The catalog of `main`, the global `dollarRate`, and the files. -/
structure State where
  productCatalog : List Product
  dollarRate : Double
  files : Files
  deriving DecidableEq

/-- The status line an operation ends with. -/
inductive Outcome where
  | invalidSpecialValue
  | duplicate
  | added
  | notFound
  | invalidChoice
  | removed
  | failedToRemove
  | invalidRate
  | rateUpdated
  deriving DecidableEq

/-- `addProduct`, for the entered name, base price and special value. -/
def addProduct (name : List Char) (basePrice specialValue : Double) (st : State) :
    Outcome × State :=
  if Double.lt specialValue Double.zero || Double.gt specialValue Double.one then
    (Outcome.invalidSpecialValue, st)
  else
    let formattedSpecialValue := fmtFixed 4 specialValue
    match st.productCatalog.find? (fun product =>
        decide (product.name = name) &&
          decide (fmtFixed 4 product.specialValue = formattedSpecialValue)) with
    | some _ => (Outcome.duplicate, st)
    | none =>
        let newProduct := Product.new name basePrice specialValue
        let catalog := st.productCatalog ++ [newProduct]
        (Outcome.added,
          { st with productCatalog := catalog, files := saveCatalogToFile catalog st.files })

/-- The `std::remove_if` / `erase` step of `removeProduct`: drops every record
whose key is `key`, keeps the others in order, and saves; when no record has
the key the program reports a failure. -/
def removeByKey (key : List Char) (st : State) : Outcome × State :=
  let kept := st.productCatalog.filter (fun product => !decide (product.getUniqueKey = key))
  if kept.length = st.productCatalog.length then (Outcome.failedToRemove, st)
  else
    (Outcome.removed,
      { st with productCatalog := kept, files := saveCatalogToFile kept st.files })

/-- `removeProduct`, for the entered name and, when several records have that
name, the entered number `choice`. -/
def removeProduct (name : List Char) (choice : Nat) (st : State) : Outcome × State :=
  let matchingProducts := st.productCatalog.filter (fun product => decide (product.name = name))
  match matchingProducts with
  | [] => (Outcome.notFound, st)
  | [front] => removeByKey front.getUniqueKey st
  | _ :: _ :: _ =>
      if choice < 1 || choice > matchingProducts.length then (Outcome.invalidChoice, st)
      else
        match matchingProducts.get? (choice - 1) with
        | none => (Outcome.invalidChoice, st)
        | some selectedProduct => removeByKey selectedProduct.getUniqueKey st

/-- `changeDollarRate`, for the entered rate: the extraction stores the entered
value in the global before the test. -/
def changeDollarRate (entered : Double) (st : State) : Outcome × State :=
  let st1 := { st with dollarRate := entered }
  if Double.le st1.dollarRate Double.zero then (Outcome.invalidRate, st1)
  else (Outcome.rateUpdated, { st1 with files := saveDollarRate st1.dollarRate st1.files })

/-- The literal `1.13`. -/
def csfloatMultiplier : Double := ofDecimal false 113 (-2)

/-- The literal `1.23`. -/
def bynogameMultiplier : Double := ofDecimal false 123 (-2)

/-- What `sellProduct` ends with. -/
inductive SellResult where
  | notFound
  | invalidChoice
  | displayed (p : Product) (lines : List (List Char))
  deriving DecidableEq

/-- `sellProduct`, for the entered name and, when several records have that
name, the entered number `choice`: the local copy `p` after
`calculateSellingPrices` and the lines `displayPrices` prints for it. -/
def sellProduct (name : List Char) (choice : Nat) (st : State) : SellResult :=
  let matchingProducts := st.productCatalog.filter (fun product => decide (product.name = name))
  match matchingProducts with
  | [] => SellResult.notFound
  | [front] =>
      let p := front.calculateSellingPrices csfloatMultiplier bynogameMultiplier st.dollarRate
      SellResult.displayed p p.displayPrices
  | _ :: _ :: _ =>
      if choice < 1 || choice > matchingProducts.length then SellResult.invalidChoice
      else
        match matchingProducts.get? (choice - 1) with
        | none => SellResult.invalidChoice
        | some selected =>
            let p := selected.calculateSellingPrices csfloatMultiplier bynogameMultiplier
              st.dollarRate
            SellResult.displayed p p.displayPrices

/-- `listProducts`: the lines printed, one per record after the heading. -/
def listProducts (productCatalog : List Product) : List (List Char) :=
  match productCatalog with
  | [] => ["No products in the catalog.".toList]
  | _ :: _ =>
      "Product Catalog:".toList ::
        productCatalog.map (fun product =>
          "Product: ".toList ++ product.name ++ ", Base Price: $".toList ++
            fmtFixed 2 product.basePrice ++ ", Special Value: ".toList ++
            fmtFixed 4 product.specialValue)

/-! ## The menu loop of `main` -/

/-- What the operations read from the console after the menu choice; each
operation uses the fields it asks for. -/
structure Inputs where
  name : List Char
  basePrice : Double
  specialValue : Double
  number : Nat
  rate : Double

/-- The `switch` of `main`. Selling, listing and the total only print. -/
def dispatch (choice : Char) (inp : Inputs) (st : State) : State :=
  if choice = 'A' ∨ choice = 'a' then
    (addProduct inp.name inp.basePrice inp.specialValue st).2
  else if choice = 'R' ∨ choice = 'r' then
    (removeProduct inp.name inp.number st).2
  else if choice = 'D' ∨ choice = 'd' then
    (changeDollarRate inp.rate st).2
  else st

/-- The `do ... while` loop of `main`: dispatches each choice and stops after
`Q` or `q`. `none` when the choices run out before that: the program is still
waiting at the menu. -/
def menuLoop : List (Char × Inputs) → State → Option State
  | [], _ => none
  | (choice, inp) :: rest, st =>
      if choice ≠ 'Q' ∧ choice ≠ 'q' then menuLoop rest (dispatch choice inp st)
      else some (dispatch choice inp st)

/-- The two saves of `main` after the loop. -/
def finalSave (st : State) : State :=
  { st with files := saveDollarRate st.dollarRate (saveCatalogToFile st.productCatalog st.files) }

/-- The part of `main` after the two loads: the menu loop, then the saves. -/
def shell (inputs : List (Char × Inputs)) (st : State) : Option State :=
  (menuLoop inputs st).map finalSave

/-- The record `loadFromFile` builds from the three lines `saveToFile` wrote for
`p`: the name, and each number as the `double` nearest to its six significant
digits. -/
def Product.reloaded (p : Product) : Product :=
  Product.new p.name p.basePrice.sixDigitValue p.specialValue.sixDigitValue

/-- The records of the catalog with the entered name, as `removeProduct` and
`sellProduct` collect them. -/
abbrev matching (name : List Char) (st : State) : List Product :=
  st.productCatalog.filter (fun product => decide (product.name = name))

/-! ## Concrete data used in the examples -/

/-- Both files can be written and neither exists yet. -/
def freshFiles : Files :=
  { catalogFile := none, rateFile := none, catalogWritable := true, rateWritable := true }

/-- The state of a first run: empty catalog, rate `1.0`. -/
def freshState : State :=
  { productCatalog := [], dollarRate := Double.one, files := freshFiles }

/-- The entered number `-5`. -/
def minusFive : Double := ofDecimal true 5 0

/-- The entered number `30`. -/
def thirty : Double := ofDecimal false 30 0

/-- The entered number `100`. -/
def hundred : Double := ofDecimal false 100 0

/-- The entered number `0.0000499999`. -/
def wearBelow : Double := ofDecimal false 499999 (-10)

/-- The entered number `0.0000500001`. -/
def wearAbove : Double := ofDecimal false 500001 (-10)

/-- A state whose rate is `30`. -/
def rateThirtyState : State :=
  { productCatalog := [], dollarRate := thirty, files := freshFiles }

/-- The catalog after two successful additions of the name `a`, with the special
values `wearBelow` and `wearAbove`. -/
def twoWearsState : State :=
  (addProduct ['a'] Double.one wearAbove (addProduct ['a'] Double.one wearBelow freshState).2).2

/-- Inputs of a menu choice that reads nothing but the rate. -/
def rateInput (rate : Double) : Inputs :=
  { name := [], basePrice := Double.zero, specialValue := Double.zero, number := 0, rate := rate }

/-- The entered number `0.5`. -/
def half : Double := ofDecimal false 5 (-1)

/-- The entered number `1234567`. -/
def bigPrice : Double := ofDecimal false 1234567 0

/-- The state after adding `ak` with base price 1234567 and special value 0.5
to the empty catalog. -/
def bigPriceState : State := (addProduct ['a', 'k'] bigPrice half freshState).2

/-- The catalog after adding `ak` (base price 100, special value 0.5) and then
`awp` (base price 30, special value 1.0), with the rate at `30`. -/
def twoNamesState : State :=
  (addProduct ['a', 'w', 'p'] thirty Double.one
    (addProduct ['a', 'k'] hundred half rateThirtyState).2).2

/-! # Theorems -/

set_option exponentiation.threshold 2048

/-! ## Facts about comparison -/

theorem Double.lt_eq_not_le (x y : Double) (hx : x.isNaN = false) (hy : y.isNaN = false) :
    Double.lt x y = !Double.le y x := by
  cases x with
  | nan => simp [Double.isNaN] at hx
  | inf n1 =>
    cases y with
    | nan => simp [Double.isNaN] at hy
    | inf n2 => cases n1 <;> cases n2 <;> rfl
    | finite n2 m2 e2 => cases n1 <;> rfl
  | finite n1 m1 e1 =>
    cases y with
    | nan => simp [Double.isNaN] at hy
    | inf n2 => cases n2 <;> rfl
    | finite n2 m2 e2 =>
      simp only [Double.lt, Double.le, min_comm e2 e1]
      by_cases h : Double.key n1 m1 e1 (min e1 e2) < Double.key n2 m2 e2 (min e1 e2)
      · simp [h]
      · simp [h, not_lt.mp h]

theorem Double.isNaN_zero : Double.zero.isNaN = false := rfl

theorem Double.isNaN_one : Double.one.isNaN = false := rfl

/-- The range test of `addProduct` passes exactly for the numbers of `[0, 1]`. -/
theorem rangeTest_iff (x : Double) (hx : x.isNaN = false) :
    (Double.lt x Double.zero || Double.gt x Double.one) = false ↔
      Double.le Double.zero x = true ∧ Double.le x Double.one = true := by
  rw [Double.gt, Double.lt_eq_not_le x _ hx Double.isNaN_zero,
    Double.lt_eq_not_le _ x Double.isNaN_one hx]
  cases Double.le Double.zero x <;> cases Double.le x Double.one <;> simp

/-! ## Add -/

/-- The duplicate test of `addProduct` finds nothing exactly when no record has
the name and the four-decimal text. -/
theorem find_duplicate_eq_none (name : List Char) (specialValue : Double) (l : List Product) :
    l.find? (fun product => decide (product.name = name) &&
        decide (fmtFixed 4 product.specialValue = fmtFixed 4 specialValue)) = none ↔
      ∀ p ∈ l, ¬ (p.name = name ∧ fmtFixed 4 p.specialValue = fmtFixed 4 specialValue) := by
  rw [List.find?_eq_none]
  constructor
  · intro h p hp
    have := h p hp
    simpa using this
  · intro h p hp
    have := h p hp
    simpa using this

theorem append_singleton_ne {α : Type} (l : List α) (a : α) : l ++ [a] ≠ l := by
  intro h
  have := congrArg List.length h
  simp at this

/-- What `addProduct` does when the entered values pass both tests. -/
theorem addProduct_accept (name : List Char) (basePrice specialValue : Double) (st : State)
    (hrange : (Double.lt specialValue Double.zero || Double.gt specialValue Double.one) = false)
    (hnew : ∀ p ∈ st.productCatalog,
      ¬ (p.name = name ∧ fmtFixed 4 p.specialValue = fmtFixed 4 specialValue)) :
    addProduct name basePrice specialValue st =
      (Outcome.added,
        { st with
          productCatalog := st.productCatalog ++ [Product.new name basePrice specialValue]
          files := saveCatalogToFile
            (st.productCatalog ++ [Product.new name basePrice specialValue]) st.files }) := by
  unfold addProduct
  rw [if_neg (by simp [hrange])]
  simp only
  rw [(find_duplicate_eq_none name specialValue st.productCatalog).mpr hnew]

/-- What `addProduct` does when one of the two tests fails. -/
theorem addProduct_reject (name : List Char) (basePrice specialValue : Double) (st : State)
    (h : ¬ ((Double.lt specialValue Double.zero || Double.gt specialValue Double.one) = false ∧
      ∀ p ∈ st.productCatalog,
        ¬ (p.name = name ∧ fmtFixed 4 p.specialValue = fmtFixed 4 specialValue))) :
    (addProduct name basePrice specialValue st).2 = st := by
  unfold addProduct
  by_cases hrange : (Double.lt specialValue Double.zero || Double.gt specialValue Double.one) = true
  · rw [if_pos hrange]
  · rw [if_neg hrange]
    simp only
    have hr : (Double.lt specialValue Double.zero || Double.gt specialValue Double.one) = false := by
      simpa using hrange
    have hdup : ¬ ∀ p ∈ st.productCatalog,
        ¬ (p.name = name ∧ fmtFixed 4 p.specialValue = fmtFixed 4 specialValue) :=
      fun hall => h ⟨hr, hall⟩
    rw [← find_duplicate_eq_none] at hdup
    cases hf : st.productCatalog.find? (fun product => decide (product.name = name) &&
        decide (fmtFixed 4 product.specialValue = fmtFixed 4 specialValue)) with
    | none => exact absurd hf hdup
    | some _ => rfl

theorem catalogText_append (l : List Product) (p : Product) :
    catalogText (l ++ [p]) = catalogText l ++ p.saveToFile := by
  induction l with
  | nil => simp [catalogText]
  | cons a l ih => simp [catalogText, ih]

/-- **C3.** `addProduct` changes the catalog if and only if the entered special
value lies in `[0.0, 1.0]` (both bounds included) and no record of the catalog
has the entered name together with a special value of the same four-decimal
text; whenever the catalog is not changed the whole state, the files included,
is the one before (nothing is saved). The entered value is a number: formatted
extraction does not deliver NaN. -/
theorem addProduct_changes_iff (name : List Char) (basePrice specialValue : Double)
    (st : State) (hnum : specialValue.isNaN = false) :
    ((addProduct name basePrice specialValue st).2.productCatalog ≠ st.productCatalog ↔
      (Double.le Double.zero specialValue = true ∧ Double.le specialValue Double.one = true) ∧
        ∀ p ∈ st.productCatalog,
          ¬ (p.name = name ∧ fmtFixed 4 p.specialValue = fmtFixed 4 specialValue)) ∧
    ((addProduct name basePrice specialValue st).2.productCatalog = st.productCatalog →
      (addProduct name basePrice specialValue st).2 = st) := by
  rw [← rangeTest_iff specialValue hnum]
  by_cases h : (Double.lt specialValue Double.zero || Double.gt specialValue Double.one) = false ∧
      ∀ p ∈ st.productCatalog,
        ¬ (p.name = name ∧ fmtFixed 4 p.specialValue = fmtFixed 4 specialValue)
  · rw [addProduct_accept name basePrice specialValue st h.1 h.2]
    refine ⟨⟨fun _ => h, fun _ => append_singleton_ne _ _⟩, fun hc => ?_⟩
    exact absurd hc (append_singleton_ne _ _)
  · have hst := addProduct_reject name basePrice specialValue st h
    refine ⟨⟨fun hne => ?_, fun hh => absurd hh h⟩, fun _ => hst⟩
    rw [hst] at hne
    exact absurd rfl hne

/-- **C4.** For an accepted input (special value in `[0, 1]`, no record with the
same name and four-decimal special value) `addProduct` yields the old catalog
followed by one record with the entered name, base price and special value,
and, the catalog file being writable, the file holds the text of the old
records in their order followed by the three lines of the new record. -/
theorem addProduct_appends (name : List Char) (basePrice specialValue : Double) (st : State)
    (hlo : Double.le Double.zero specialValue = true)
    (hhi : Double.le specialValue Double.one = true)
    (hnew : ∀ p ∈ st.productCatalog,
      ¬ (p.name = name ∧ fmtFixed 4 p.specialValue = fmtFixed 4 specialValue))
    (hw : st.files.catalogWritable = true) :
    (addProduct name basePrice specialValue st).1 = Outcome.added ∧
    (addProduct name basePrice specialValue st).2.productCatalog =
      st.productCatalog ++ [Product.new name basePrice specialValue] ∧
    (Product.new name basePrice specialValue).name = name ∧
    (Product.new name basePrice specialValue).basePrice = basePrice ∧
    (Product.new name basePrice specialValue).specialValue = specialValue ∧
    (addProduct name basePrice specialValue st).2.productCatalog.length =
      st.productCatalog.length + 1 ∧
    (addProduct name basePrice specialValue st).2.files.catalogFile =
      some (catalogText (addProduct name basePrice specialValue st).2.productCatalog) ∧
    (addProduct name basePrice specialValue st).2.files.catalogFile =
      some (catalogText st.productCatalog ++
        (Product.new name basePrice specialValue).saveToFile) := by
  have hnum : specialValue.isNaN = false := by
    cases specialValue <;> simp_all [Double.isNaN, Double.le]
  have hrange := (rangeTest_iff specialValue hnum).mpr ⟨hlo, hhi⟩
  rw [addProduct_accept name basePrice specialValue st hrange hnew]
  simp [saveCatalogToFile, hw, catalogText_append, Product.new]

/-! ## Digits -/

theorem isDigit_digitChar (d : Nat) : isDigit (digitChar d) = true := by
  have h : d % 10 < 10 := Nat.mod_lt _ (by decide)
  unfold digitChar
  generalize d % 10 = k at h
  interval_cases k <;> decide

theorem isDigit_natDigitsAux (fuel n : Nat) (acc : List Char)
    (hacc : ∀ c ∈ acc, isDigit c = true) :
    ∀ c ∈ natDigitsAux fuel n acc, isDigit c = true := by
  induction fuel generalizing n acc with
  | zero => simpa [natDigitsAux] using hacc
  | succ fuel ih =>
    have hcons : ∀ c ∈ digitChar n :: acc, isDigit c = true := by
      intro c hc
      rcases List.mem_cons.mp hc with rfl | hc
      · exact isDigit_digitChar n
      · exact hacc c hc
    unfold natDigitsAux
    split
    · exact hcons
    · exact ih _ _ hcons

theorem isDigit_natDigits (n : Nat) : ∀ c ∈ natDigits n, isDigit c = true :=
  isDigit_natDigitsAux _ _ _ (by simp)

theorem isDigit_fracDigits (width n : Nat) : ∀ c ∈ fracDigits width n, isDigit c = true := by
  induction width generalizing n with
  | zero => simp [fracDigits]
  | succ width ih =>
    intro c hc
    simp only [fracDigits, List.mem_append, List.mem_singleton] at hc
    rcases hc with hc | rfl
    · exact ih _ c hc
    · exact isDigit_digitChar n

theorem isFixedChar_fmtFixed (prec : Nat) (x : Double) :
    ∀ c ∈ fmtFixed prec x, isFixedChar c = true := by
  intro c hc
  cases x with
  | nan =>
    simp only [fmtFixed, List.mem_cons, List.mem_singleton] at hc
    rcases hc with rfl | rfl | rfl | hc
    · decide
    · decide
    · decide
    · simp at hc
  | inf neg =>
    cases neg <;> simp only [fmtFixed, signChars, List.mem_cons, List.mem_append] at hc
    · simp at hc
      rcases hc with rfl | rfl | rfl <;> decide
    · simp at hc
      rcases hc with rfl | rfl | rfl | rfl <;> decide
  | finite neg m e =>
    simp only [fmtFixed, List.mem_append] at hc
    rcases hc with (hc | hc) | hc
    · cases neg <;> simp [signChars] at hc
      subst hc; decide
    · simp [isFixedChar, isDigit_natDigits _ c hc]
    · split at hc
      · simp at hc
      · rcases List.mem_cons.mp hc with rfl | hc
        · decide
        · simp [isFixedChar, isDigit_fracDigits _ _ c hc]

theorem underscore_not_mem_fmtFixed (prec : Nat) (x : Double) : '_' ∉ fmtFixed prec x := by
  intro h
  have := isFixedChar_fmtFixed prec x _ h
  revert this
  decide

/-! ## The key -/

theorem prefix_sep_inj {α : Type} (sep : α) :
    ∀ (p q x y : List α), sep ∉ p → sep ∉ q → p ++ sep :: x = q ++ sep :: y → p = q ∧ x = y
  | [], [], x, y, _, _, h => by simpa using h
  | [], d :: q, x, y, _, hq, h => by
    simp only [List.nil_append, List.cons_append, List.cons.injEq] at h
    exact absurd (by simp [h.1]) hq
  | c :: p, [], x, y, hp, _, h => by
    simp only [List.nil_append, List.cons_append, List.cons.injEq] at h
    exact absurd (by simp [h.1]) hp
  | c :: p, d :: q, x, y, hp, hq, h => by
    simp only [List.cons_append, List.cons.injEq] at h
    have := prefix_sep_inj sep p q x y (fun hm => hp (List.mem_cons_of_mem _ hm))
      (fun hm => hq (List.mem_cons_of_mem _ hm)) h.2
    exact ⟨by rw [h.1, this.1], this.2⟩

theorem suffix_sep_inj {α : Type} (sep : α) (a b u v : List α) (hu : sep ∉ u) (hv : sep ∉ v)
    (h : a ++ sep :: u = b ++ sep :: v) : a = b ∧ u = v := by
  have hr := congrArg List.reverse h
  simp only [List.reverse_append, List.reverse_cons, List.append_assoc, List.singleton_append]
    at hr
  have := prefix_sep_inj sep u.reverse v.reverse a.reverse b.reverse
    (by simpa using hu) (by simpa using hv) hr
  exact ⟨List.reverse_injective this.2, List.reverse_injective this.1⟩

/-- Two records have the same key exactly when they have the same name and the
same seven-decimal text of the special value. -/
theorem getUniqueKey_eq_iff (p q : Product) :
    p.getUniqueKey = q.getUniqueKey ↔
      p.name = q.name ∧ fmtFixed 7 p.specialValue = fmtFixed 7 q.specialValue := by
  constructor
  · intro h
    exact suffix_sep_inj '_' _ _ _ _ (underscore_not_mem_fmtFixed _ _)
      (underscore_not_mem_fmtFixed _ _) h
  · rintro ⟨h1, h2⟩
    simp [Product.getUniqueKey, h1, h2]

/-! ## Remove -/

/-- Removing by the key of a record of the catalog always removes something. -/
theorem removeByKey_of_mem (p : Product) (st : State) (hp : p ∈ st.productCatalog) :
    removeByKey p.getUniqueKey st =
      (Outcome.removed,
        { st with
          productCatalog := st.productCatalog.filter
            (fun product => !decide (product.getUniqueKey = p.getUniqueKey))
          files := saveCatalogToFile (st.productCatalog.filter
            (fun product => !decide (product.getUniqueKey = p.getUniqueKey))) st.files }) ∧
    (st.productCatalog.filter
      (fun product => !decide (product.getUniqueKey = p.getUniqueKey))).length <
        st.productCatalog.length := by
  have hlt : (st.productCatalog.filter
      (fun product => !decide (product.getUniqueKey = p.getUniqueKey))).length <
        st.productCatalog.length :=
    List.length_filter_lt_length_iff_exists.mpr ⟨p, hp, by simp⟩
  refine ⟨?_, hlt⟩
  unfold removeByKey
  simp only
  rw [if_neg (Nat.ne_of_lt hlt)]

theorem removeProduct_none (name : List Char) (choice : Nat) (st : State)
    (h : matching name st = []) : removeProduct name choice st = (Outcome.notFound, st) := by
  unfold removeProduct
  simp only
  rw [show st.productCatalog.filter (fun product => decide (product.name = name)) = [] from h]

theorem removeProduct_one (name : List Char) (choice : Nat) (st : State) (front : Product)
    (h : matching name st = [front]) :
    removeProduct name choice st = removeByKey front.getUniqueKey st := by
  unfold removeProduct
  simp only
  rw [show st.productCatalog.filter (fun product => decide (product.name = name)) = [front]
    from h]

theorem removeProduct_many_invalid (name : List Char) (choice : Nat) (st : State)
    (h : 2 ≤ (matching name st).length)
    (hc : choice = 0 ∨ (matching name st).length < choice) :
    removeProduct name choice st = (Outcome.invalidChoice, st) := by
  unfold removeProduct
  simp only
  have h2 := h
  have hc2 := hc
  unfold matching at h2 hc2
  generalize st.productCatalog.filter (fun product => decide (product.name = name)) = l
    at h2 hc2
  match l, h2 with
  | _ :: _ :: _, _ =>
    simp only
    rw [if_pos]
    rcases hc2 with rfl | hc2
    · simp
    · simp only [Bool.or_eq_true, decide_eq_true_eq]
      right
      exact hc2

theorem removeProduct_many_valid (name : List Char) (choice : Nat) (st : State)
    (selected : Product)
    (h : 2 ≤ (matching name st).length) (h1 : 1 ≤ choice)
    (hsel : (matching name st).get? (choice - 1) = some selected) :
    removeProduct name choice st = removeByKey selected.getUniqueKey st := by
  unfold removeProduct
  simp only
  have h2 := h
  have hs2 := hsel
  unfold matching at h2 hs2
  generalize st.productCatalog.filter (fun product => decide (product.name = name)) = l
    at h2 hs2
  match l, h2 with
  | a :: b :: r, _ =>
    simp only
    have hlen : choice - 1 < (a :: b :: r).length := by
      rcases List.get?_eq_some.mp hs2 with ⟨hl, _⟩
      exact hl
    rw [if_neg, hs2]
    simp only [Bool.or_eq_true, decide_eq_true_eq, not_or, not_lt]
    exact ⟨h1, by omega⟩

/-- **C7.** `removeProduct` leaves the state as it was (same records in the same
order, files untouched) when no record has the entered name, and when several
records have it and the entered number is 0 or greater than their count. -/
theorem removeProduct_rejected (name : List Char) (choice : Nat) (st : State)
    (h : (matching name st).length = 0 ∨
      (2 ≤ (matching name st).length ∧ (choice = 0 ∨ (matching name st).length < choice))) :
    (removeProduct name choice st).2 = st ∧
    ((matching name st).length = 0 → (removeProduct name choice st).1 = Outcome.notFound) ∧
    (2 ≤ (matching name st).length →
      (removeProduct name choice st).1 = Outcome.invalidChoice) := by
  rcases h with h | ⟨h, hc⟩
  · have h0 : matching name st = [] := List.length_eq_zero.mp h
    rw [removeProduct_none name choice st h0]
    refine ⟨rfl, fun _ => rfl, fun h2 => ?_⟩
    omega
  · rw [removeProduct_many_invalid name choice st h hc]
    refine ⟨rfl, fun h0 => ?_, fun _ => rfl⟩
    omega

/-- The record `removeProduct` removes by key: the only one with the name, or
the one the entered number selects. -/
theorem removeProduct_selects (name : List Char) (choice : Nat) (st : State)
    (h : 1 ≤ (matching name st).length)
    (hc : 2 ≤ (matching name st).length → 1 ≤ choice ∧ choice ≤ (matching name st).length) :
    ∃ selected, selected ∈ st.productCatalog ∧ selected.name = name ∧
      (matching name st).get? (if (matching name st).length = 1 then 0 else choice - 1) =
        some selected ∧
      removeProduct name choice st = removeByKey selected.getUniqueKey st := by
  by_cases h1 : (matching name st).length = 1
  · obtain ⟨front, hf⟩ := List.length_eq_one.mp h1
    have hmem : front ∈ matching name st := by rw [hf]; simp
    have hm := List.mem_filter.mp hmem
    refine ⟨front, hm.1, by simpa using hm.2, ?_, removeProduct_one name choice st front hf⟩
    rw [if_pos h1, hf]
    rfl
  · have h2 : 2 ≤ (matching name st).length := by omega
    obtain ⟨hc1, hc2⟩ := hc h2
    have hlt : choice - 1 < (matching name st).length := by omega
    have hget : (matching name st).get? (choice - 1) =
        some ((matching name st).get ⟨choice - 1, hlt⟩) := List.get?_eq_get hlt
    have hmem : (matching name st).get ⟨choice - 1, hlt⟩ ∈ matching name st :=
      List.get_mem _ _ _
    have hm := List.mem_filter.mp hmem
    refine ⟨_, hm.1, by simpa using hm.2, ?_,
      removeProduct_many_valid name choice st _ h2 hc1 hget⟩
    rw [if_neg h1, hget]

/-- **C10.** The branch that prints "Failed to remove the product." is never
taken: when at least one record has the entered name and, several having it,
the entered number is a valid 1-based index, `removeProduct` ends with the
success message, the catalog is strictly shorter, and the new catalog is what
is saved (the catalog file being writable, it holds the text of the new
catalog). -/
theorem removeProduct_never_fails (name : List Char) (choice : Nat) (st : State)
    (h : 1 ≤ (matching name st).length)
    (hc : 2 ≤ (matching name st).length → 1 ≤ choice ∧ choice ≤ (matching name st).length) :
    (removeProduct name choice st).1 = Outcome.removed ∧
    (removeProduct name choice st).1 ≠ Outcome.failedToRemove ∧
    (removeProduct name choice st).2.productCatalog.length < st.productCatalog.length ∧
    (removeProduct name choice st).2.files =
      saveCatalogToFile (removeProduct name choice st).2.productCatalog st.files ∧
    (st.files.catalogWritable = true →
      (removeProduct name choice st).2.files.catalogFile =
        some (catalogText (removeProduct name choice st).2.productCatalog)) := by
  obtain ⟨selected, hmem, _, _, hrm⟩ := removeProduct_selects name choice st h hc
  obtain ⟨heq, hlt⟩ := removeByKey_of_mem selected st hmem
  rw [hrm, heq]
  refine ⟨rfl, by simp, hlt, rfl, fun hw => ?_⟩
  simp [saveCatalogToFile, hw]

/-- **C5.** When exactly one record of the catalog has the entered name,
`removeProduct` deletes exactly that record: the catalog splits around it into
records of other names, the result is that catalog without it (the other
records unchanged and in their order), and it is one record shorter. -/
theorem removeProduct_single (name : List Char) (choice : Nat) (st : State)
    (h : (matching name st).length = 1) :
    ∃ before target after,
      st.productCatalog = before ++ target :: after ∧
      target.name = name ∧
      (∀ q ∈ before ++ after, q.name ≠ name) ∧
      (removeProduct name choice st).1 = Outcome.removed ∧
      (removeProduct name choice st).2.productCatalog = before ++ after ∧
      (removeProduct name choice st).2.productCatalog.length + 1 =
        st.productCatalog.length := by
  obtain ⟨front, hf⟩ := List.length_eq_one.mp h
  obtain ⟨before, after, hsplit, hbefore, hfront, hafter⟩ := List.filter_eq_cons_iff.mp hf
  have hname : front.name = name := by simpa using hfront
  have hothers : ∀ q ∈ before ++ after, q.name ≠ name := by
    intro q hq
    rcases List.mem_append.mp hq with hq | hq
    · simpa using hbefore q hq
    · simpa using List.filter_eq_nil_iff.mp hafter q hq
  have hmem : front ∈ st.productCatalog := by rw [hsplit]; simp
  obtain ⟨heq, _⟩ := removeByKey_of_mem front st hmem
  have hkept : st.productCatalog.filter
      (fun product => !decide (product.getUniqueKey = front.getUniqueKey)) = before ++ after := by
    rw [hsplit, List.filter_append, List.filter_cons]
    simp only [decide_True, Bool.not_true, Bool.false_eq_true, if_false]
    rw [← List.filter_append]
    apply List.filter_eq_self.mpr
    intro q hq
    have hq1 : ¬ q.getUniqueKey = front.getUniqueKey := by
      intro hk
      have := ((getUniqueKey_eq_iff q front).mp hk).1
      exact hothers q hq (this.trans hname)
    simp [hq1]
  refine ⟨before, front, after, hsplit, hname, hothers, ?_, ?_, ?_⟩
  · rw [removeProduct_one name choice st front hf, heq]
  · rw [removeProduct_one name choice st front hf, heq]
    exact hkept
  · rw [removeProduct_one name choice st front hf, heq]
    simp only
    rw [hkept, hsplit]
    simp
    omega

/-! ## Change rate and the menu loop -/

/-- **C1 (code defect).** With the rate at `30`, entering `-5` is reported as
invalid and the rate file is not written, but the rate in memory is `-5`
afterwards, not `30`: the extraction stores the entered value in the global
before the test. Whatever is entered, accepted or not, is the rate in memory
after the call. -/
theorem changeDollarRate_keeps_rejected_rate :
    (Double.le minusFive Double.zero = true ∧
    (changeDollarRate minusFive rateThirtyState).1 = Outcome.invalidRate ∧
    (changeDollarRate minusFive rateThirtyState).2.files = rateThirtyState.files ∧
    rateThirtyState.dollarRate = thirty ∧
    (changeDollarRate minusFive rateThirtyState).2.dollarRate = minusFive ∧
    (changeDollarRate minusFive rateThirtyState).2.dollarRate ≠ thirty) ∧
    ∀ (entered : Double) (st : State), (changeDollarRate entered st).2.dollarRate = entered := by
  refine ⟨by decide!, fun entered st => ?_⟩
  unfold changeDollarRate
  simp only
  split <;> rfl

/-- **C2 (code defect).** From the start state of a first run (rate `1.0 > 0`),
the choices `D` with `-5` entered and then `Q` end with the rate `-5` in
memory, which is not greater than 0, and with the text `-5` in the rate file. -/
theorem shell_saves_rejected_rate :
    Double.lt Double.zero freshState.dollarRate = true ∧
    (shell [('D', rateInput minusFive), ('Q', rateInput Double.zero)] freshState).map
      (fun st => st.dollarRate) = some minusFive ∧
    Double.lt Double.zero minusFive = false ∧
    (shell [('D', rateInput minusFive), ('Q', rateInput Double.zero)] freshState).map
      (fun st => st.files.rateFile) = some (some ['-', '5', '\n']) := by
  decide!

/-- **C6 (code defect).** Two additions of the name `a` from the empty catalog,
with the special values `0.0000499999` and `0.0000500001`, both succeed (their
four-decimal texts are `0.0000` and `0.0001`); both records have the name, and
removing with the valid number 1 deletes both of them, because their
seven-decimal texts are both `0.0000500`: the catalog loses two records. -/
theorem removeProduct_removes_two :
    twoWearsState.productCatalog =
      [Product.new ['a'] Double.one wearBelow, Product.new ['a'] Double.one wearAbove] ∧
    fmtFixed 4 wearBelow = ['0', '.', '0', '0', '0', '0'] ∧
    fmtFixed 4 wearAbove = ['0', '.', '0', '0', '0', '1'] ∧
    fmtFixed 7 wearBelow = ['0', '.', '0', '0', '0', '0', '5', '0', '0'] ∧
    fmtFixed 7 wearAbove = ['0', '.', '0', '0', '0', '0', '5', '0', '0'] ∧
    (matching ['a'] twoWearsState).length = 2 ∧
    (removeProduct ['a'] 1 twoWearsState).1 = Outcome.removed ∧
    (removeProduct ['a'] 1 twoWearsState).2.productCatalog = [] ∧
    (removeProduct ['a'] 1 twoWearsState).2.productCatalog.length + 2 =
      twoWearsState.productCatalog.length := by
  decide!

/-! ## Sell -/

/-- **C8.** For the record `sellProduct` chooses (the only one with the entered
name, or the one the entered number selects) and the current `dollarRate`,
the prices it displays are those of `calculateSellingPrices` with the
multipliers `1.13` and `1.23` and the global rate:
`csfloatPrice = basePrice * 1.13` and
`bynogamePrice = basePrice * 1.23 * dollarRate` (products of doubles); for the
base price 100 and the rate 30 the two price lines show `113.00000` and
`3690.00000`. -/
theorem sellProduct_prices (name : List Char) (choice : Nat) (st : State) (selected : Product)
    (hsel : matching name st = [selected] ∨
      (2 ≤ (matching name st).length ∧ 1 ≤ choice ∧
        (matching name st).get? (choice - 1) = some selected)) :
    ∃ p,
      sellProduct name choice st = SellResult.displayed p p.displayPrices ∧
      p = selected.calculateSellingPrices csfloatMultiplier bynogameMultiplier st.dollarRate ∧
      csfloatMultiplier = ofDecimal false 113 (-2) ∧
      bynogameMultiplier = ofDecimal false 123 (-2) ∧
      p.basePrice = selected.basePrice ∧
      p.csfloatPrice = Double.mul selected.basePrice csfloatMultiplier ∧
      p.bynogamePrice =
        Double.mul (Double.mul selected.basePrice bynogameMultiplier) st.dollarRate ∧
      p.displayPrices.drop 3 =
        ["Selling price for CSFloat: $".toList ++ fmtFixed 5 p.csfloatPrice,
          "Selling price for ByNoGame: ".toList ++ fmtFixed 5 p.bynogamePrice ++ "TL".toList] ∧
      (selected.basePrice = hundred → st.dollarRate = thirty →
        fmtFixed 5 p.csfloatPrice = "113.00000".toList ∧
        fmtFixed 5 p.bynogamePrice = "3690.00000".toList) := by
  refine ⟨selected.calculateSellingPrices csfloatMultiplier bynogameMultiplier st.dollarRate,
    ?_, rfl, rfl, rfl, rfl, rfl, rfl, rfl, ?_⟩
  · unfold sellProduct
    simp only
    rcases hsel with h | ⟨h2, h1, hget⟩
    · rw [show st.productCatalog.filter (fun product => decide (product.name = name)) =
        [selected] from h]
    · have h2a := h2
      have hga := hget
      unfold matching at h2a hga
      generalize st.productCatalog.filter (fun product => decide (product.name = name)) = l
        at h2a hga
      match l, h2a with
      | a :: b :: r, _ =>
        simp only
        have hlen : choice - 1 < (a :: b :: r).length := by
          rcases List.get?_eq_some.mp hga with ⟨hl, _⟩
          exact hl
        rw [if_neg, hga]
        simp only [Bool.or_eq_true, decide_eq_true_eq, not_or, not_lt]
        exact ⟨h1, by omega⟩
  · intro hb hr
    simp only [Product.calculateSellingPrices, hb, hr]
    constructor <;> decide!

/-! ## Logarithms -/

theorem log2Aux_spec (fuel n : Nat) (hn : n ≠ 0) (hf : n ≤ fuel) :
    2 ^ log2Aux fuel n ≤ n ∧ n < 2 ^ (log2Aux fuel n + 1) := by
  induction fuel generalizing n with
  | zero => omega
  | succ fuel ih =>
    unfold log2Aux
    by_cases h2 : n < 2
    · rw [if_pos h2]
      simp
      omega
    · rw [if_neg h2]
      have hd : n / 2 ≠ 0 := by omega
      have hdf : n / 2 ≤ fuel := by omega
      obtain ⟨h1, h3⟩ := ih (n / 2) hd hdf
      constructor
      · rw [pow_succ]
        omega
      · rw [pow_succ]
        omega

theorem log2_spec (n : Nat) (hn : n ≠ 0) : 2 ^ log2 n ≤ n ∧ n < 2 ^ (log2 n + 1) :=
  log2Aux_spec n n hn (le_refl n)

theorem log10Aux_spec (fuel n : Nat) (hn : n ≠ 0) (hf : n ≤ fuel) :
    10 ^ log10Aux fuel n ≤ n ∧ n < 10 ^ (log10Aux fuel n + 1) := by
  induction fuel generalizing n with
  | zero => omega
  | succ fuel ih =>
    unfold log10Aux
    by_cases h2 : n < 10
    · rw [if_pos h2]
      simp
      omega
    · rw [if_neg h2]
      have hd : n / 10 ≠ 0 := by omega
      have hdf : n / 10 ≤ fuel := by omega
      obtain ⟨h1, h3⟩ := ih (n / 10) hd hdf
      constructor
      · rw [pow_succ]
        omega
      · rw [pow_succ]
        omega

theorem log10_spec (n : Nat) (hn : n ≠ 0) : 10 ^ log10 n ≤ n ∧ n < 10 ^ (log10 n + 1) :=
  log10Aux_spec n n hn (le_refl n)

/-- The search of `negExp10` stops at the least exponent from `k` on, when one
exists within the fuel. -/
theorem negExp10_spec (fuel num den k : Nat) (hbelow : ¬ den ≤ num * 10 ^ (k - 1) ∨ k = 0)
    (hfound : den ≤ num * 10 ^ (k + fuel)) :
    k ≤ negExp10 fuel num den k ∧ den ≤ num * 10 ^ negExp10 fuel num den k ∧
      (negExp10 fuel num den k = 0 ∨ ¬ den ≤ num * 10 ^ (negExp10 fuel num den k - 1)) := by
  induction fuel generalizing k with
  | zero =>
    simp only [negExp10]
    refine ⟨le_refl _, by simpa using hfound, ?_⟩
    rcases hbelow with h | h
    · exact Or.inr h
    · exact Or.inl h
  | succ fuel ih =>
    unfold negExp10
    by_cases h : den ≤ num * 10 ^ k
    · rw [if_pos h]
      refine ⟨le_refl _, h, ?_⟩
      rcases hbelow with h | h
      · exact Or.inr h
      · exact Or.inl h
    · rw [if_neg h]
      have := ih (k + 1) (Or.inl (by simpa using h))
        (by rw [show k + 1 + fuel = k + (fuel + 1) by omega]; exact hfound)
      exact ⟨by omega, this.2.1, this.2.2⟩

/-! ## Rounding bounds -/

theorem roundHalfEven_le (num den K : Nat) (hden : 0 < den) (h : num ≤ K * den) :
    roundHalfEven num den ≤ K := by
  unfold roundHalfEven
  have hq : num / den ≤ K := Nat.div_le_of_le_mul (by rw [Nat.mul_comm]; exact h)
  have hmod := Nat.mod_lt num hden
  have hdm := Nat.div_add_mod num den
  by_cases hK : num / den = K
  · have hr : num % den = 0 := by
      have : den * K + num % den ≤ K * den := by rw [hK] at hdm; omega
      rw [Nat.mul_comm] at this
      omega
    simp only [hr]
    rw [if_pos (by omega)]
    exact hq
  · have : num / den + 1 ≤ K := by omega
    simp only
    split
    · omega
    · split
      · omega
      · split <;> omega

theorem roundHalfEven_le_of_lt_half (num den K : Nat) (hden : 0 < den)
    (h : 2 * num < (2 * K + 1) * den) : roundHalfEven num den ≤ K := by
  unfold roundHalfEven
  have hmod := Nat.mod_lt num hden
  have hdm := Nat.div_add_mod num den
  have hq : num / den ≤ K := by
    by_contra hc
    have h1 : K + 1 ≤ num / den := by omega
    have h2 : (K + 1) * den ≤ num / den * den := Nat.mul_le_mul_right den h1
    have h3 : num / den * den ≤ num := Nat.div_mul_le_self num den
    nlinarith
  by_cases hK : num / den = K
  · have hr : 2 * (num % den) < den := by
      rw [hK] at hdm
      nlinarith
    simp only
    rw [if_pos hr]
    exact hq
  · have : num / den + 1 ≤ K := by omega
    simp only
    split
    · omega
    · split
      · omega
      · split <;> omega

/-! ## The decimal exponent -/

theorem floorLog10_of_le (num den : Nat) (hden : 0 < den) (h : den ≤ num) :
    ∃ k : Nat, floorLog10 num den = (k : Int) ∧ den * 10 ^ k ≤ num ∧ num < den * 10 ^ (k + 1) := by
  refine ⟨log10 (num / den), by simp [floorLog10, h], ?_, ?_⟩
  · have hq : num / den ≠ 0 := by
      have := Nat.div_pos h hden
      omega
    have := (log10_spec _ hq).1
    have h2 := (Nat.le_div_iff_mul_le hden).mp this
    rw [Nat.mul_comm]
    exact h2
  · have hq : num / den ≠ 0 := by
      have := Nat.div_pos h hden
      omega
    have := (log10_spec _ hq).2
    have h2 := (Nat.div_lt_iff_lt_mul hden).mp this
    rw [Nat.mul_comm]
    exact h2

theorem floorLog10_of_lt (num den : Nat) (hnum : 0 < num) (h : num < den) :
    ∃ k : Nat, 1 ≤ k ∧ floorLog10 num den = -(k : Int) ∧ den ≤ num * 10 ^ k ∧
      num * 10 ^ (k - 1) < den := by
  have hfound : den ≤ num * 10 ^ (1 + den) := by
    have h1 : den < 10 ^ den := Nat.lt_pow_self (by decide) den
    have h2 : 10 ^ den ≤ 10 ^ (1 + den) := Nat.pow_le_pow_right (by decide) (by omega)
    calc den ≤ 1 * 10 ^ (1 + den) := by omega
      _ ≤ num * 10 ^ (1 + den) := Nat.mul_le_mul_right _ hnum
  obtain ⟨h1, h2, h3⟩ := negExp10_spec den num den 1 (Or.inl (by simpa using h)) hfound
  refine ⟨negExp10 den num den 1, h1, by simp [floorLog10, Nat.not_le.mpr h], h2, ?_⟩
  rcases h3 with h3 | h3
  · omega
  · exact Nat.not_le.mp h3

theorem maxFinite_lt_pow10 : maxFinite < 10 ^ 309 := by
  unfold maxFinite; norm_num

theorem two_maxFinite_lt : 2 * maxFinite < (2 * 179769 + 1) * 10 ^ 303 := by
  unfold maxFinite; norm_num

theorem pow10_le_readBound : 10 ^ 308 ≤ readBound := by
  unfold readBound; norm_num

theorem readBound_le_maxFinite : readBound ≤ maxFinite := by
  unfold readBound maxFinite; norm_num

theorem readBound_lt_pow2 : readBound < 2 ^ 1024 := by
  unfold readBound; norm_num

/-- The six digits and their exponent, for a value of at least one. -/
theorem sixDigits_bound_of_le (num den : Nat) (hden : 0 < den) (h : den ≤ num)
    (hmax : num ≤ maxFinite * den) :
    sixDigits num den ≤ 10 ^ 6 ∧
      ∀ k : Nat, decimalExponent num den = (k : Int) + 5 →
        sixDigits num den * 10 ^ k ≤ readBound := by
  obtain ⟨k0, hx0, hlo, hhi⟩ := floorLog10_of_le num den hden h
  have hk0 : k0 < 309 := by
    have h1 : den * 10 ^ k0 ≤ den * maxFinite := by
      rw [Nat.mul_comm den maxFinite]; exact le_trans hlo hmax
    have h2 : 10 ^ k0 ≤ maxFinite := Nat.le_of_mul_le_mul_left h1 hden
    have h3 : 10 ^ k0 < 10 ^ 309 := lt_of_le_of_lt h2 maxFinite_lt_pow10
    exact (Nat.pow_lt_pow_iff_right (by decide)).mp h3
  have hn0 : sigRound num den (k0 : Int) ≤ 10 ^ 6 := by
    unfold sigRound
    by_cases h5 : (5 : Int) ≤ (k0 : Int)
    · rw [if_pos h5]
      have he : ((k0 : Int) - 5).toNat = k0 - 5 := by omega
      rw [he]
      apply roundHalfEven_le _ _ _ (Nat.mul_pos hden (by positivity))
      have : 10 ^ 6 * (den * 10 ^ (k0 - 5)) = den * 10 ^ (k0 + 1) := by
        rw [show k0 + 1 = 6 + (k0 - 5) by omega, pow_add]; ring
      rw [this]
      exact le_of_lt hhi
    · rw [if_neg h5]
      have he : (5 - (k0 : Int)).toNat = 5 - k0 := by omega
      rw [he]
      apply roundHalfEven_le _ _ _ hden
      have h6 : den * 10 ^ (k0 + 1) * 10 ^ (5 - k0) = 10 ^ 6 * den := by
        rw [Nat.mul_assoc, ← pow_add, show k0 + 1 + (5 - k0) = 6 by omega]; ring
      have h7 : num * 10 ^ (5 - k0) ≤ den * 10 ^ (k0 + 1) * 10 ^ (5 - k0) :=
        Nat.mul_le_mul_right _ (le_of_lt hhi)
      omega
  have hn308 : k0 = 308 → sigRound num den (k0 : Int) ≤ 179769 := by
    intro hk
    subst hk
    unfold sigRound
    rw [if_pos (by norm_num)]
    have he : (((308 : Nat) : Int) - 5).toNat = 303 := by omega
    rw [he]
    apply roundHalfEven_le_of_lt_half _ _ _ (Nat.mul_pos hden (by positivity))
    have h1 : 2 * num ≤ 2 * maxFinite * den := by nlinarith
    have h2 : 2 * maxFinite * den < (2 * 179769 + 1) * 10 ^ 303 * den :=
      Nat.mul_lt_mul_of_pos_right two_maxFinite_lt hden
    calc 2 * num ≤ 2 * maxFinite * den := h1
      _ < (2 * 179769 + 1) * 10 ^ 303 * den := h2
      _ = (2 * 179769 + 1) * (den * 10 ^ 303) := by ring
  unfold sixDigits decimalExponent
  rw [hx0]
  by_cases hc : sigRound num den (k0 : Int) = 10 ^ 6
  · rw [if_pos hc, if_pos hc]
    refine ⟨by norm_num, fun k hk => ?_⟩
    have hk307 : k0 ≤ 307 := by
      by_contra hcon
      have : k0 = 308 := by omega
      have := hn308 this
      rw [hc] at this
      norm_num at this
    have hk' : k + 5 = k0 + 1 := by omega
    calc 10 ^ 5 * 10 ^ k = 10 ^ (k + 5) := by rw [pow_add]; ring
      _ = 10 ^ (k0 + 1) := by rw [hk']
      _ ≤ 10 ^ 308 := Nat.pow_le_pow_right (by decide) (by omega)
      _ ≤ readBound := pow10_le_readBound
  · rw [if_neg hc, if_neg hc]
    refine ⟨hn0, fun k hk => ?_⟩
    have hk' : k0 = k + 5 := by omega
    by_cases h308 : k0 = 308
    · have h1 := hn308 h308
      have hk303 : k = 303 := by omega
      rw [hk303]
      calc sigRound num den (k0 : Int) * 10 ^ 303 ≤ 179769 * 10 ^ 303 :=
            Nat.mul_le_mul_right _ h1
        _ = readBound := rfl
    · have hk307 : k + 6 ≤ 308 := by omega
      calc sigRound num den (k0 : Int) * 10 ^ k ≤ 10 ^ 6 * 10 ^ k :=
            Nat.mul_le_mul_right _ hn0
        _ = 10 ^ (k + 6) := by rw [pow_add]; ring
        _ ≤ 10 ^ 308 := Nat.pow_le_pow_right (by decide) hk307
        _ ≤ readBound := pow10_le_readBound

/-- The six digits and their exponent, for a value below one. -/
theorem sixDigits_bound_of_lt (num den : Nat) (hnum : 0 < num) (h : num < den) :
    sixDigits num den ≤ 10 ^ 6 ∧ decimalExponent num den ≤ 0 := by
  obtain ⟨k, hk1, hx0, hlo, hhi⟩ := floorLog10_of_lt num den hnum h
  have hden : 0 < den := by omega
  have hn0 : sigRound num den (-(k : Int)) ≤ 10 ^ 6 := by
    unfold sigRound
    rw [if_neg (by omega)]
    have he : (5 - -(k : Int)).toNat = (k - 1) + 6 := by omega
    rw [he]
    apply roundHalfEven_le _ _ _ hden
    have : num * 10 ^ (k - 1 + 6) = num * 10 ^ (k - 1) * 10 ^ 6 := by rw [pow_add]; ring
    rw [this]
    nlinarith
  unfold sixDigits decimalExponent
  rw [hx0]
  by_cases hc : sigRound num den (-(k : Int)) = 10 ^ 6
  · rw [if_pos hc, if_pos hc]
    exact ⟨by norm_num, by omega⟩
  · rw [if_neg hc, if_neg hc]
    exact ⟨hn0, by omega⟩

/-! ## No overflow when reading back -/

theorem floorLog2_le (num den : Nat) (hnum : 0 < num) (hden : 0 < den)
    (h : num ≤ readBound * den) : floorLog2 num den ≤ 1023 := by
  have hn := log2_spec num (by omega)
  have hd := log2_spec den (by omega)
  have hlt : num < 2 ^ 1024 * den :=
    lt_of_le_of_lt h (Nat.mul_lt_mul_of_pos_right readBound_lt_pow2 hden)
  -- the difference of the bit lengths is at most 1024
  have hk : log2 num < 1025 + log2 den := by
    by_contra hcon
    have h1 : 1025 + log2 den ≤ log2 num := by omega
    have h2 : 2 ^ (1025 + log2 den) ≤ 2 ^ log2 num := Nat.pow_le_pow_right (by decide) h1
    have h3 : 2 ^ (1025 + log2 den) = 2 ^ 1024 * 2 ^ (log2 den + 1) := by
      rw [← pow_add]; congr 1; omega
    have h4 : 2 ^ 1024 * den < 2 ^ 1024 * 2 ^ (log2 den + 1) :=
      Nat.mul_lt_mul_of_pos_left hd.2 (by positivity)
    omega
  unfold floorLog2
  simp only
  by_cases h0 : (0 : Int) ≤ (log2 num : Int) - (log2 den : Int)
  · rw [if_pos h0]
    by_cases ht : den * 2 ^ ((log2 num : Int) - (log2 den : Int)).toNat ≤ num
    · rw [if_pos ht]
      have he : ((log2 num : Int) - (log2 den : Int)).toNat = log2 num - log2 den := by omega
      rw [he] at ht
      have h5 : den * 2 ^ (log2 num - log2 den) < den * 2 ^ 1024 := by
        rw [Nat.mul_comm den (2 ^ 1024)]; exact lt_of_le_of_lt ht hlt
      have h6 : 2 ^ (log2 num - log2 den) < 2 ^ 1024 := Nat.lt_of_mul_lt_mul_left h5
      have h7 := (Nat.pow_lt_pow_iff_right (by decide : 1 < 2)).mp h6
      omega
    · rw [if_neg ht]
      omega
  · rw [if_neg h0]
    split <;> omega

theorem roundResult_isFinite (neg : Bool) (m : Nat) (e : Int)
    (hcarry : m = 2 ^ 53 → e + 1 ≤ 971) (he : e ≤ 971) :
    (if (if m = 2 ^ 53 then 2 ^ 52 else m) = 0 then Double.finite neg 0 0
      else if 971 < (if m = 2 ^ 53 then e + 1 else e) then Double.inf neg
      else Double.finite neg (if m = 2 ^ 53 then 2 ^ 52 else m)
        (if m = 2 ^ 53 then e + 1 else e)).isFinite = true := by
  by_cases hm : m = 2 ^ 53
  · have := hcarry hm
    simp only [hm, if_true]
    rw [if_neg (by norm_num), if_neg (by omega)]
    rfl
  · simp only [hm, if_false]
    split
    · rfl
    · rw [if_neg (by omega)]
      rfl

/-- A magnitude of at most `1.79769e+308` rounds to a finite `double`. -/
theorem roundToDouble_isFinite (neg : Bool) (num den : Nat) (hden : 0 < den)
    (h : num ≤ readBound * den) : (roundToDouble neg num den).isFinite = true := by
  unfold roundToDouble
  by_cases h0 : num = 0
  · rw [if_pos h0]; rfl
  · rw [if_neg h0]
    have hl := floorLog2_le num den (by omega) hden h
    apply roundResult_isFinite
    · intro hm
      by_cases he : max (floorLog2 num den - 52) (-1074) = 971
      · -- the mantissa stays below `2^53`
        have hle : roundHalfEven num (den * 2 ^ 971) ≤ 2 ^ 53 - 1 := by
          apply roundHalfEven_le _ _ _ (Nat.mul_pos hden (by positivity))
          have h1 : readBound * den ≤ maxFinite * den :=
            Nat.mul_le_mul_right _ readBound_le_maxFinite
          calc num ≤ maxFinite * den := le_trans h h1
            _ = (2 ^ 53 - 1) * (den * 2 ^ 971) := by unfold maxFinite; ring
        rw [he] at hm
        simp only [show (0 : Int) ≤ 971 by decide, if_true,
          show (971 : Int).toNat = 971 by rfl] at hm
        omega
      · omega
    · omega

/-! ## The number a digit string denotes -/

theorem digitChar_value (d : Nat) : (digitChar d).toNat - 48 = d % 10 := by
  have h : d % 10 < 10 := Nat.mod_lt _ (by decide)
  unfold digitChar
  generalize d % 10 = k at h
  interval_cases k <;> rfl

theorem foldl_digits (l : List Char) (a : Nat) :
    l.foldl (fun a c => 10 * a + (c.toNat - 48)) a = a * 10 ^ l.length + digitsValue l := by
  induction l generalizing a with
  | nil => simp [digitsValue]
  | cons c l ih =>
    simp only [List.foldl_cons, digitsValue, List.length_cons]
    rw [ih, ih (10 * 0 + (c.toNat - 48))]
    ring

theorem digitsValue_cons (c : Char) (l : List Char) :
    digitsValue (c :: l) = (c.toNat - 48) * 10 ^ l.length + digitsValue l := by
  unfold digitsValue
  rw [List.foldl_cons, foldl_digits]
  simp [digitsValue]

theorem digitsValue_append (l1 l2 : List Char) :
    digitsValue (l1 ++ l2) = digitsValue l1 * 10 ^ l2.length + digitsValue l2 := by
  unfold digitsValue
  rw [List.foldl_append, foldl_digits]
  simp [digitsValue]

theorem natDigitsAux_value (fuel n : Nat) (acc : List Char) (h : n < 10 ^ fuel) :
    digitsValue (natDigitsAux fuel n acc) = n * 10 ^ acc.length + digitsValue acc := by
  induction fuel generalizing n acc with
  | zero =>
    have : n = 0 := by simpa using h
    simp [natDigitsAux, this]
  | succ fuel ih =>
    unfold natDigitsAux
    have hdm := Nat.div_add_mod n 10
    by_cases h0 : n / 10 = 0
    · rw [if_pos h0, digitsValue_cons, digitChar_value]
      have : n % 10 = n := by omega
      rw [this]
    · rw [if_neg h0]
      have hlt : n / 10 < 10 ^ fuel := by
        rw [pow_succ] at h
        exact Nat.div_lt_of_lt_mul (by rw [Nat.mul_comm]; exact h)
      rw [ih _ _ hlt, digitsValue_cons, digitChar_value, List.length_cons, pow_succ]
      have e : n * 10 ^ acc.length = (10 * (n / 10) + n % 10) * 10 ^ acc.length := by rw [hdm]
      rw [e]
      ring

theorem digitsValue_natDigits (n : Nat) : digitsValue (natDigits n) = n := by
  unfold natDigits
  rw [natDigitsAux_value _ _ _ (lt_trans (Nat.lt_succ_self n) (Nat.lt_pow_self (by decide) _))]
  simp [digitsValue]

theorem natDigitsAux_ne_nil (fuel n : Nat) (acc : List Char) (h : acc ≠ [] ∨ fuel ≠ 0) :
    natDigitsAux fuel n acc ≠ [] := by
  induction fuel generalizing n acc with
  | zero =>
    rcases h with h | h
    · simpa [natDigitsAux] using h
    · exact absurd rfl h
  | succ fuel ih =>
    unfold natDigitsAux
    split
    · simp
    · exact ih _ _ (Or.inl (by simp))

theorem natDigits_ne_nil (n : Nat) : natDigits n ≠ [] :=
  natDigitsAux_ne_nil _ _ _ (Or.inr (by omega))

theorem length_fracDigits (width n : Nat) : (fracDigits width n).length = width := by
  induction width generalizing n with
  | zero => rfl
  | succ width ih => simp [fracDigits, ih]

theorem digitsValue_fracDigits (width n : Nat) :
    digitsValue (fracDigits width n) = n % 10 ^ width := by
  induction width generalizing n with
  | zero => simp [fracDigits, digitsValue, Nat.mod_one]
  | succ width ih =>
    simp only [fracDigits]
    rw [digitsValue_append, ih, digitsValue_cons, digitChar_value]
    simp only [List.length_singleton, pow_one, List.length_nil, pow_zero, mul_one, digitsValue,
      List.foldl_nil, add_zero]
    rw [pow_succ, Nat.mul_comm (10 ^ width) 10, Nat.mod_mul]
    ring

theorem digitsValue_replicate_zero (z : Nat) : digitsValue (List.replicate z '0') = 0 := by
  induction z with
  | zero => rfl
  | succ z ih =>
    have h0 : '0'.toNat - 48 = 0 := by decide
    rw [List.replicate_succ, digitsValue_cons, ih, h0]
    simp

/-- Stripping removes a block of zeros at the end and nothing else. -/
theorem stripZeros_spec (l : List Char) :
    ∃ z, l = stripZeros l ++ List.replicate z '0' := by
  refine ⟨(l.reverse.takeWhile (fun c => c == '0')).length, ?_⟩
  have h1 := List.takeWhile_append_dropWhile (fun c => c == '0') l.reverse
  have h2 : l.reverse.takeWhile (fun c => c == '0') =
      List.replicate (l.reverse.takeWhile (fun c => c == '0')).length '0' := by
    apply List.eq_replicate_iff.mpr
    refine ⟨rfl, fun c hc => ?_⟩
    have := List.mem_takeWhile_imp hc
    simpa using this
  have h3 := congrArg List.reverse h1
  rw [List.reverse_append, List.reverse_reverse] at h3
  have h4 : (l.reverse.takeWhile (fun c => c == '0')).reverse =
      List.replicate (l.reverse.takeWhile (fun c => c == '0')).length '0' := by
    conv_lhs => rw [h2]
    rw [List.reverse_replicate]
  calc l = (l.reverse.dropWhile (fun c => c == '0')).reverse ++
        (l.reverse.takeWhile (fun c => c == '0')).reverse := h3.symm
    _ = stripZeros l ++ List.replicate (l.reverse.takeWhile (fun c => c == '0')).length '0' := by
      rw [h4]; rfl

theorem stripZeros_value (l : List Char) :
    ∃ z, (stripZeros l).length + z = l.length ∧
      digitsValue (stripZeros l) * 10 ^ z = digitsValue l := by
  obtain ⟨z, hz⟩ := stripZeros_spec l
  refine ⟨z, ?_, ?_⟩
  · conv_rhs => rw [hz]
    simp
  · conv_rhs => rw [hz]
    rw [digitsValue_append, digitsValue_replicate_zero]
    simp

theorem isDigit_stripZeros (l : List Char) (h : ∀ c ∈ l, isDigit c = true) :
    ∀ c ∈ stripZeros l, isDigit c = true := by
  intro c hc
  obtain ⟨z, hz⟩ := stripZeros_spec l
  apply h
  rw [hz]
  exact List.mem_append_left _ hc

/-! ## Reading a written number -/

theorem isDigit_of_atLineEnd (c : Char) (r : List Char) (h : atLineEnd (c :: r) = true) :
    isDigit c = false := by
  have : c = '\n' := by simpa [atLineEnd] using h
  subst this
  decide

theorem takeWhile_digits (ip tail : List Char) (hip : ∀ c ∈ ip, isDigit c = true)
    (ht : ∀ c r, tail = c :: r → isDigit c = false) :
    (ip ++ tail).takeWhile isDigit = ip ∧ (ip ++ tail).dropWhile isDigit = tail := by
  rw [List.takeWhile_append_of_pos hip, List.dropWhile_append_of_pos hip]
  cases tail with
  | nil => simp
  | cons c r =>
    have := ht c r rfl
    simp [List.takeWhile_cons, List.dropWhile_cons, this]

/-- Reading digits, an optional fraction, and then the end of the line. -/
theorem extractUnsigned_plain (neg : Bool) (ip fp rest : List Char)
    (hip : ∀ c ∈ ip, isDigit c = true) (hne : ip ≠ [])
    (hfp : ∀ c ∈ fp, isDigit c = true) (hrest : atLineEnd rest = true) :
    extractUnsigned neg (ip ++ (pointFrac fp ++ rest)) =
      convert neg (digitsValue (ip ++ fp)) (0 - (fp.length : Int)) rest := by
  have hrd : ∀ c r, rest = c :: r → isDigit c = false := by
    intro c r h; subst h; exact isDigit_of_atLineEnd c r hrest
  cases fp with
  | nil =>
    obtain ⟨h1, h2⟩ := takeWhile_digits ip rest hip hrd
    unfold extractUnsigned
    simp only [pointFrac, List.nil_append, h1, h2]
    cases rest with
    | nil => simp [hne]
    | cons c r =>
      have hc : c = '\n' := by simpa [atLineEnd] using hrest
      subst hc
      simp [hne]
  | cons c cs =>
    have hdot : ∀ c' r, ('.' :: (c :: cs ++ rest)) = c' :: r → isDigit c' = false := by
      intro c' r h
      simp only [List.cons.injEq] at h
      rw [← h.1]; decide
    obtain ⟨h1, h2⟩ := takeWhile_digits ip _ hip hdot
    obtain ⟨h3, h4⟩ := takeWhile_digits (c :: cs) rest hfp hrd
    show extractUnsigned neg (ip ++ '.' :: (c :: cs ++ rest)) = _
    unfold extractUnsigned
    simp only [h1, h2, h3, h4]
    cases rest with
    | nil => simp
    | cons c2 r =>
      have hc : c2 = '\n' := by simpa [atLineEnd] using hrest
      subst hc
      simp

theorem takeSign_signed (sg : Char) (t : List Char) (hsg : sg = '+' ∨ sg = '-') :
    takeSign (sg :: t) = (decide (sg = '-'), t) := by
  rcases hsg with rfl | rfl <;> rfl

/-- Reading digits, an optional fraction, an exponent, and then the end of the
line. -/
theorem extractUnsigned_exp (neg : Bool) (ip fp ed rest : List Char) (sg : Char)
    (hip : ∀ c ∈ ip, isDigit c = true) (hne : ip ≠ [])
    (hfp : ∀ c ∈ fp, isDigit c = true) (hsg : sg = '+' ∨ sg = '-')
    (hed : ∀ c ∈ ed, isDigit c = true) (hedne : ed ≠ [])
    (hrest : atLineEnd rest = true) :
    extractUnsigned neg (ip ++ (pointFrac fp ++ 'e' :: sg :: (ed ++ rest))) =
      convert neg (digitsValue (ip ++ fp))
        ((if sg = '-' then -(digitsValue ed : Int) else (digitsValue ed : Int)) -
          (fp.length : Int)) rest := by
  have hrd : ∀ c r, rest = c :: r → isDigit c = false := by
    intro c r h; subst h; exact isDigit_of_atLineEnd c r hrest
  have he : ∀ c r, ('e' :: sg :: (ed ++ rest)) = c :: r → isDigit c = false := by
    intro c r h
    simp only [List.cons.injEq] at h
    rw [← h.1]; decide
  obtain ⟨h5, h6⟩ := takeWhile_digits ed rest hed hrd
  have hts := takeSign_signed sg (ed ++ rest) hsg
  cases fp with
  | nil =>
    obtain ⟨h1, h2⟩ := takeWhile_digits ip _ hip he
    show extractUnsigned neg (ip ++ 'e' :: sg :: (ed ++ rest)) = _
    unfold extractUnsigned
    simp only [h1, h2]
    simp [hne, hedne, hts, h5, h6]
  | cons c cs =>
    have hdot : ∀ c' r, ('.' :: (c :: cs ++ 'e' :: sg :: (ed ++ rest))) = c' :: r →
        isDigit c' = false := by
      intro c' r h
      simp only [List.cons.injEq] at h
      rw [← h.1]; decide
    obtain ⟨h1, h2⟩ := takeWhile_digits ip _ hip hdot
    obtain ⟨h3, h4⟩ := takeWhile_digits (c :: cs) _ hfp he
    show extractUnsigned neg (ip ++ '.' :: (c :: cs ++ 'e' :: sg :: (ed ++ rest))) = _
    unfold extractUnsigned
    simp only [h1, h2, h3, h4]
    simp [hedne, hts, h5, h6]

theorem digitsValue_expDigits (k : Nat) : digitsValue (expDigits k) = k := by
  unfold expDigits
  split
  · rename_i h
    rw [digitsValue_cons, digitsValue_cons, digitChar_value]
    have : k % 10 = k := Nat.mod_eq_of_lt h
    simp [digitsValue, this]
  · exact digitsValue_natDigits k

theorem isDigit_expDigits (k : Nat) : ∀ c ∈ expDigits k, isDigit c = true := by
  unfold expDigits
  split
  · intro c hc
    simp only [List.mem_cons, List.mem_singleton] at hc
    rcases hc with rfl | rfl | hc
    · decide
    · exact isDigit_digitChar k
    · simp at hc
  · exact isDigit_natDigits k

theorem expDigits_ne_nil (k : Nat) : expDigits k ≠ [] := by
  unfold expDigits
  split
  · simp
  · exact natDigits_ne_nil k

/-- The sign and the white space in front of a number. -/
theorem extractDouble_signed (neg : Bool) (c : Char) (body : List Char)
    (hc : isDigit c = true) :
    extractDouble (signChars neg ++ c :: body) = extractUnsigned neg (c :: body) := by
  have hcs : isSpace c = false := by
    unfold isDigit at hc
    unfold isSpace
    by_contra hcon
    simp only [Bool.not_eq_false, Bool.or_eq_true, beq_iff_eq] at hcon
    rcases hcon with ((((rfl | rfl) | rfl) | rfl) | rfl) | rfl <;> revert hc <;> decide
  have hcm : c ≠ '-' := by rintro rfl; revert hc; decide
  have hcp : c ≠ '+' := by rintro rfl; revert hc; decide
  have hts : takeSign (c :: body) = (false, c :: body) := by
    unfold takeSign
    split
    · rename_i h; simp only [List.cons.injEq] at h; exact absurd h.1 hcm
    · rename_i h; simp only [List.cons.injEq] at h; exact absurd h.1 hcp
    · rfl
  cases neg with
  | false =>
    unfold extractDouble
    simp only [signChars, Bool.false_eq_true, if_false, List.nil_append]
    rw [List.dropWhile_cons_of_neg (by simp [hcs]), hts]
  | true =>
    unfold extractDouble
    simp only [signChars, if_true, List.singleton_append]
    rw [List.dropWhile_cons_of_neg (by decide)]
    rfl

theorem extractDouble_newline (s : List Char) :
    extractDouble ('\n' :: s) = extractDouble s := by
  unfold extractDouble
  rw [List.dropWhile_cons_of_pos (by decide)]

/-! ## Rounding depends on the value only -/

theorem roundHalfEven_congr (n1 d1 n2 d2 : Nat) (h1 : 0 < d1) (h2 : 0 < d2)
    (h : n1 * d2 = n2 * d1) : roundHalfEven n1 d1 = roundHalfEven n2 d2 := by
  have hq : n1 / d1 = n2 / d2 := by
    rw [← Nat.mul_div_mul_right n1 d1 h2, ← Nat.mul_div_mul_right n2 d2 h1, h,
      Nat.mul_comm d1 d2]
  have e1 := Nat.div_add_mod n1 d1
  have e2 := Nat.div_add_mod n2 d2
  have hr : (n1 % d1) * d2 = (n2 % d2) * d1 := by
    have a1 : n1 * d2 = d1 * (n1 / d1) * d2 + (n1 % d1) * d2 := by
      conv_lhs => rw [← e1]
      ring
    have a2 : n2 * d1 = d2 * (n2 / d2) * d1 + (n2 % d2) * d1 := by
      conv_lhs => rw [← e2]
      ring
    rw [hq] at a1
    have a3 : d1 * (n2 / d2) * d2 = d2 * (n2 / d2) * d1 := by ring
    omega
  have c1 : 2 * (n1 % d1) < d1 ↔ 2 * (n2 % d2) < d2 := by
    constructor
    · intro hlt
      by_contra hcon
      have : d2 ≤ 2 * (n2 % d2) := Nat.not_lt.mp hcon
      nlinarith
    · intro hlt
      by_contra hcon
      have : d1 ≤ 2 * (n1 % d1) := Nat.not_lt.mp hcon
      nlinarith
  have c2 : d1 < 2 * (n1 % d1) ↔ d2 < 2 * (n2 % d2) := by
    constructor
    · intro hlt
      by_contra hcon
      have : 2 * (n2 % d2) ≤ d2 := Nat.not_lt.mp hcon
      nlinarith
    · intro hlt
      by_contra hcon
      have : 2 * (n1 % d1) ≤ d1 := Nat.not_lt.mp hcon
      nlinarith
  unfold roundHalfEven
  simp only [hq, c1, c2]

theorem expLe_mono (num den : Nat) (l l' : Int) (h : expLe num den l) (hl : l' ≤ l) :
    expLe num den l' := by
  unfold expLe at *
  have p1 : 2 ^ l'.toNat ≤ 2 ^ l.toNat := Nat.pow_le_pow_right (by decide) (by omega)
  have p2 : 2 ^ (-l).toNat ≤ 2 ^ (-l').toNat := Nat.pow_le_pow_right (by decide) (by omega)
  calc den * 2 ^ l'.toNat ≤ den * 2 ^ l.toNat := Nat.mul_le_mul_left _ p1
    _ ≤ num * 2 ^ (-l).toNat := h
    _ ≤ num * 2 ^ (-l').toNat := Nat.mul_le_mul_left _ p2

theorem expLe_congr (n1 d1 n2 d2 : Nat) (l : Int) (h1 : 0 < d1) (h2 : 0 < d2)
    (h : n1 * d2 = n2 * d1) : expLe n1 d1 l ↔ expLe n2 d2 l := by
  unfold expLe
  constructor
  · intro hle
    have a : d1 * (d2 * 2 ^ l.toNat) ≤ d1 * (n2 * 2 ^ (-l).toNat) := by
      calc d1 * (d2 * 2 ^ l.toNat) = d2 * (d1 * 2 ^ l.toNat) := by ring
        _ ≤ d2 * (n1 * 2 ^ (-l).toNat) := Nat.mul_le_mul_left _ hle
        _ = n1 * d2 * 2 ^ (-l).toNat := by ring
        _ = n2 * d1 * 2 ^ (-l).toNat := by rw [h]
        _ = d1 * (n2 * 2 ^ (-l).toNat) := by ring
    exact Nat.le_of_mul_le_mul_left a h1
  · intro hle
    have a : d2 * (d1 * 2 ^ l.toNat) ≤ d2 * (n1 * 2 ^ (-l).toNat) := by
      calc d2 * (d1 * 2 ^ l.toNat) = d1 * (d2 * 2 ^ l.toNat) := by ring
        _ ≤ d1 * (n2 * 2 ^ (-l).toNat) := Nat.mul_le_mul_left _ hle
        _ = n2 * d1 * 2 ^ (-l).toNat := by ring
        _ = n1 * d2 * 2 ^ (-l).toNat := by rw [h]
        _ = d2 * (n1 * 2 ^ (-l).toNat) := by ring
    exact Nat.le_of_mul_le_mul_left a h2

/-- `floorLog2 num den` is the integer `l` with `2^l ≤ num / den < 2^(l+1)`. -/
theorem floorLog2_spec (num den : Nat) (hnum : 0 < num) (hden : 0 < den) :
    expLe num den (floorLog2 num den) ∧ ¬ expLe num den (floorLog2 num den + 1) := by
  obtain ⟨na, nb⟩ := log2_spec num (by omega)
  obtain ⟨da, db⟩ := log2_spec den (by omega)
  unfold floorLog2
  simp only
  generalize log2 num = a at na nb
  generalize log2 den = b at da db
  unfold expLe
  by_cases hab : b ≤ a
  · have hk : ((a : Int) - (b : Int)).toNat = a - b := by omega
    rw [if_pos (by omega), hk]
    have hpow : 2 ^ b * 2 ^ (a - b) = 2 ^ a := by rw [← pow_add]; congr 1; omega
    by_cases ht : den * 2 ^ (a - b) ≤ num
    · rw [if_pos ht]
      have e1 : ((a : Int) - (b : Int)).toNat = a - b := hk
      have e2 : (-((a : Int) - (b : Int))).toNat = 0 := by omega
      have e3 : ((a : Int) - (b : Int) + 1).toNat = a - b + 1 := by omega
      have e4 : (-((a : Int) - (b : Int) + 1)).toNat = 0 := by omega
      rw [e1, e2, e3, e4]
      refine ⟨by simpa using ht, ?_⟩
      intro hcon
      have h1 : 2 ^ b * 2 ^ (a - b + 1) ≤ den * 2 ^ (a - b + 1) := Nat.mul_le_mul_right _ da
      have h2 : 2 ^ b * 2 ^ (a - b + 1) = 2 ^ (a + 1) := by rw [← pow_add]; congr 1; omega
      simp only [pow_zero, mul_one] at hcon
      omega
    · rw [if_neg ht]
      have e3 : ((a : Int) - (b : Int) - 1 + 1).toNat = a - b := by omega
      have e4 : (-((a : Int) - (b : Int) - 1 + 1)).toNat = 0 := by omega
      rw [e3, e4]
      refine ⟨?_, by simpa using ht⟩
      by_cases hab1 : b < a
      · have e1 : ((a : Int) - (b : Int) - 1).toNat = a - b - 1 := by omega
        have e2 : (-((a : Int) - (b : Int) - 1)).toNat = 0 := by omega
        rw [e1, e2]
        have h1 : den * 2 ^ (a - b - 1) ≤ 2 ^ (b + 1) * 2 ^ (a - b - 1) :=
          Nat.mul_le_mul_right _ (le_of_lt db)
        have h2 : 2 ^ (b + 1) * 2 ^ (a - b - 1) = 2 ^ a := by rw [← pow_add]; congr 1; omega
        simp only [pow_zero, mul_one]
        omega
      · have hab2 : a = b := by omega
        subst hab2
        have e1 : ((a : Int) - (a : Int) - 1).toNat = 0 := by omega
        have e2 : (-((a : Int) - (a : Int) - 1)).toNat = 1 := by omega
        rw [e1, e2]
        rw [pow_succ] at db
        simp only [pow_zero, mul_one, pow_one]
        omega
  · have hab' : a < b := by omega
    have hk : (-((a : Int) - (b : Int))).toNat = b - a := by omega
    rw [if_neg (by omega), hk]
    by_cases ht : den ≤ num * 2 ^ (b - a)
    · rw [if_pos ht]
      have e1 : ((a : Int) - (b : Int)).toNat = 0 := by omega
      have e3 : ((a : Int) - (b : Int) + 1).toNat = 0 := by omega
      have e4 : (-((a : Int) - (b : Int) + 1)).toNat = b - a - 1 := by omega
      rw [e1, hk, e3, e4]
      refine ⟨by simpa using ht, ?_⟩
      intro hcon
      have h1 : num * 2 ^ (b - a - 1) < 2 ^ (a + 1) * 2 ^ (b - a - 1) :=
        Nat.mul_lt_mul_of_pos_right nb (by positivity)
      have h2 : 2 ^ (a + 1) * 2 ^ (b - a - 1) = 2 ^ b := by rw [← pow_add]; congr 1; omega
      simp only [pow_zero, mul_one] at hcon
      omega
    · rw [if_neg ht]
      have e1 : ((a : Int) - (b : Int) - 1).toNat = 0 := by omega
      have e2 : (-((a : Int) - (b : Int) - 1)).toNat = b - a + 1 := by omega
      have e3 : ((a : Int) - (b : Int) - 1 + 1).toNat = 0 := by omega
      have e4 : (-((a : Int) - (b : Int) - 1 + 1)).toNat = b - a := by omega
      rw [e1, e2, e3, e4]
      refine ⟨?_, by simpa using ht⟩
      have h1 : 2 ^ a * 2 ^ (b - a + 1) ≤ num * 2 ^ (b - a + 1) := Nat.mul_le_mul_right _ na
      have h2 : 2 ^ a * 2 ^ (b - a + 1) = 2 ^ (b + 1) := by rw [← pow_add]; congr 1; omega
      simp only [pow_zero, mul_one]
      omega

theorem floorLog2_congr (n1 d1 n2 d2 : Nat) (hn1 : 0 < n1) (hn2 : 0 < n2) (h1 : 0 < d1)
    (h2 : 0 < d2) (h : n1 * d2 = n2 * d1) : floorLog2 n1 d1 = floorLog2 n2 d2 := by
  obtain ⟨a1, a2⟩ := floorLog2_spec n1 d1 hn1 h1
  obtain ⟨b1, b2⟩ := floorLog2_spec n2 d2 hn2 h2
  rw [expLe_congr n1 d1 n2 d2 _ h1 h2 h] at a1 a2
  by_contra hne
  rcases lt_or_gt_of_ne hne with hlt | hgt
  · exact a2 (expLe_mono n2 d2 _ _ b1 (by omega))
  · exact b2 (expLe_mono n2 d2 _ _ a1 (by omega))

/-- Equal fractions round to the same `double`. -/
theorem roundToDouble_congr (neg : Bool) (n1 d1 n2 d2 : Nat) (h1 : 0 < d1) (h2 : 0 < d2)
    (h : n1 * d2 = n2 * d1) : roundToDouble neg n1 d1 = roundToDouble neg n2 d2 := by
  by_cases hz : n1 = 0
  · have hz2 : n2 = 0 := by
      subst hz
      simp only [zero_mul] at h
      rcases Nat.mul_eq_zero.mp h.symm with h0 | h0
      · exact h0
      · omega
    simp [roundToDouble, hz, hz2]
  · have hz2 : n2 ≠ 0 := by
      intro h0
      subst h0
      simp only [zero_mul] at h
      rcases Nat.mul_eq_zero.mp h with h0 | h0
      · exact hz h0
      · omega
    unfold roundToDouble
    rw [if_neg hz, if_neg hz2]
    rw [floorLog2_congr n1 d1 n2 d2 (by omega) (by omega) h1 h2 h]
    simp only
    have ha : roundHalfEven n1 (d1 * 2 ^ (max (floorLog2 n2 d2 - 52) (-1074)).toNat) =
        roundHalfEven n2 (d2 * 2 ^ (max (floorLog2 n2 d2 - 52) (-1074)).toNat) := by
      apply roundHalfEven_congr _ _ _ _ (Nat.mul_pos h1 (by positivity))
        (Nat.mul_pos h2 (by positivity))
      calc n1 * (d2 * 2 ^ (max (floorLog2 n2 d2 - 52) (-1074)).toNat)
          = n1 * d2 * 2 ^ (max (floorLog2 n2 d2 - 52) (-1074)).toNat := by ring
        _ = n2 * d1 * 2 ^ (max (floorLog2 n2 d2 - 52) (-1074)).toNat := by rw [h]
        _ = n2 * (d1 * 2 ^ (max (floorLog2 n2 d2 - 52) (-1074)).toNat) := by ring
    have hb : roundHalfEven (n1 * 2 ^ (-(max (floorLog2 n2 d2 - 52) (-1074))).toNat) d1 =
        roundHalfEven (n2 * 2 ^ (-(max (floorLog2 n2 d2 - 52) (-1074))).toNat) d2 := by
      apply roundHalfEven_congr _ _ _ _ h1 h2
      calc n1 * 2 ^ (-(max (floorLog2 n2 d2 - 52) (-1074))).toNat * d2
          = n1 * d2 * 2 ^ (-(max (floorLog2 n2 d2 - 52) (-1074))).toNat := by ring
        _ = n2 * d1 * 2 ^ (-(max (floorLog2 n2 d2 - 52) (-1074))).toNat := by rw [h]
        _ = n2 * 2 ^ (-(max (floorLog2 n2 d2 - 52) (-1074))).toNat * d1 := by ring
    rw [ha, hb]

/-- Moving zeros between the digits and the exponent does not change the value
a decimal numeral denotes. -/
theorem ofDecimal_scale (neg : Bool) (digits z : Nat) (exp10 : Int) :
    ofDecimal neg digits (exp10 + z) = ofDecimal neg (digits * 10 ^ z) exp10 := by
  unfold ofDecimal
  by_cases h0 : 0 ≤ exp10
  · rw [if_pos (by omega), if_pos h0]
    congr 1
    have : (exp10 + (z : Int)).toNat = z + exp10.toNat := by omega
    rw [this, pow_add]
    ring
  · rw [if_neg h0]
    by_cases h1 : 0 ≤ exp10 + z
    · rw [if_pos h1]
      apply roundToDouble_congr _ _ _ _ _ (by decide) (by positivity)
      have : z = (exp10 + (z : Int)).toNat + (-exp10).toNat := by omega
      conv_rhs => rw [this, pow_add]
      ring
    · rw [if_neg h1]
      apply roundToDouble_congr _ _ _ _ _ (by positivity) (by positivity)
      have : (-exp10).toNat = z + (-(exp10 + (z : Int))).toNat := by omega
      rw [this, pow_add]
      ring

/-! ## What a written number reads back as -/

theorem generalBody_value (d n : Nat) :
    ∃ z, (stripZeros (fracDigits d (n % 10 ^ d))).length + z = d ∧
      digitsValue (natDigits (n / 10 ^ d) ++ stripZeros (fracDigits d (n % 10 ^ d))) * 10 ^ z =
        n := by
  obtain ⟨z, hz1, hz2⟩ := stripZeros_value (fracDigits d (n % 10 ^ d))
  rw [length_fracDigits] at hz1
  rw [digitsValue_fracDigits, Nat.mod_mod] at hz2
  refine ⟨z, hz1, ?_⟩
  rw [digitsValue_append, digitsValue_natDigits, add_mul, hz2, mul_assoc, ← pow_add, hz1]
  exact Nat.div_add_mod' n (10 ^ d)

theorem convert_of_isFinite (neg : Bool) (digits : Nat) (exp10 : Int) (rest : List Char)
    (h : (ofDecimal neg digits exp10).isFinite = true) :
    convert neg digits exp10 rest = some (ofDecimal neg digits exp10, rest) := by
  unfold convert
  cases hv : ofDecimal neg digits exp10 with
  | finite n m e => rfl
  | inf n => rw [hv] at h; simp [Double.isFinite] at h
  | nan => rw [hv] at h; simp [Double.isFinite] at h

theorem ofDecimal_sixDigits_isFinite (neg : Bool) (num den : Nat) (hnum : 0 < num)
    (hden : 0 < den) (hmax : num ≤ maxFinite * den) :
    (ofDecimal neg (sixDigits num den) (decimalExponent num den - 5)).isFinite = true := by
  have hB : 10 ^ 6 ≤ readBound := le_trans (Nat.pow_le_pow_right (by decide) (by decide))
    pow10_le_readBound
  have hsmall : sixDigits num den ≤ 10 ^ 6 ∧
      ∀ k : Nat, decimalExponent num den = (k : Int) + 5 →
        sixDigits num den * 10 ^ k ≤ readBound := by
    by_cases h : den ≤ num
    · exact sixDigits_bound_of_le num den hden h hmax
    · obtain ⟨h1, h2⟩ := sixDigits_bound_of_lt num den hnum (by omega)
      exact ⟨h1, fun k hk => by omega⟩
  obtain ⟨h6, hk⟩ := hsmall
  unfold ofDecimal
  by_cases h5 : 0 ≤ decimalExponent num den - 5
  · rw [if_pos h5]
    apply roundToDouble_isFinite _ _ _ (by decide)
    have := hk (decimalExponent num den - 5).toNat (by omega)
    simpa using this
  · rw [if_neg h5]
    apply roundToDouble_isFinite _ _ _ (by positivity)
    calc sixDigits num den ≤ 10 ^ 6 := h6
      _ ≤ readBound := hB
      _ = readBound * 1 := by ring
      _ ≤ readBound * 10 ^ (-(decimalExponent num den - 5)).toNat :=
        Nat.mul_le_mul_left _ (Nat.one_le_pow _ _ (by decide))

theorem natDigits_head (n : Nat) : ∃ c t, natDigits n = c :: t ∧ isDigit c = true := by
  cases h : natDigits n with
  | nil => exact absurd h (natDigits_ne_nil n)
  | cons c t => exact ⟨c, t, rfl, isDigit_natDigits n c (by rw [h]; simp)⟩

/-- Reading the text of a fixed-style or scientific-style body gives the
decimal number it was written from. -/
theorem extract_generalBody (neg : Bool) (d n : Nat) (rest : List Char)
    (hrest : atLineEnd rest = true) :
    ∃ z : Nat, extractDouble (signChars neg ++ generalBody d n ++ rest) =
        convert neg (n / 10 ^ z) ((z : Int) - d) rest ∧ n / 10 ^ z * 10 ^ z = n ∧ z ≤ d := by
  obtain ⟨z, hz1, hz2⟩ := generalBody_value d n
  obtain ⟨c, t, hct, hc⟩ := natDigits_head (n / 10 ^ d)
  have hD : digitsValue (natDigits (n / 10 ^ d) ++ stripZeros (fracDigits d (n % 10 ^ d))) =
      n / 10 ^ z := by
    conv_rhs => rw [← hz2]
    rw [Nat.mul_div_cancel _ (by positivity)]
  refine ⟨z, ?_, ?_, by omega⟩
  · have hshape : signChars neg ++ generalBody d n ++ rest =
        signChars neg ++ c :: (t ++ (pointFrac (stripZeros (fracDigits d (n % 10 ^ d))) ++ rest)) := by
      unfold generalBody
      rw [hct]
      simp
    rw [hshape, extractDouble_signed neg c _ hc]
    have := extractUnsigned_plain neg (natDigits (n / 10 ^ d))
      (stripZeros (fracDigits d (n % 10 ^ d))) rest (isDigit_natDigits _) (natDigits_ne_nil _)
      (isDigit_stripZeros _ (isDigit_fracDigits _ _)) hrest
    rw [hct] at this
    rw [List.cons_append] at this
    rw [this, ← hct, hD]
    congr 1
    omega
  · rw [← hD]; exact hz2

theorem extract_generalBody_exp (neg : Bool) (n : Nat) (x : Int) (rest : List Char)
    (hrest : atLineEnd rest = true) :
    ∃ z : Nat, extractDouble (signChars neg ++ generalBody 5 n ++
          'e' :: (if x < 0 then '-' else '+') :: expDigits x.natAbs ++ rest) =
        convert neg (n / 10 ^ z) (x + (z : Int) - 5) rest ∧ n / 10 ^ z * 10 ^ z = n := by
  obtain ⟨z, hz1, hz2⟩ := generalBody_value 5 n
  obtain ⟨c, t, hct, hc⟩ := natDigits_head (n / 10 ^ 5)
  have hD : digitsValue (natDigits (n / 10 ^ 5) ++ stripZeros (fracDigits 5 (n % 10 ^ 5))) =
      n / 10 ^ z := by
    conv_rhs => rw [← hz2]
    rw [Nat.mul_div_cancel _ (by positivity)]
  refine ⟨z, ?_, ?_⟩
  · have hshape : signChars neg ++ generalBody 5 n ++
          'e' :: (if x < 0 then '-' else '+') :: expDigits x.natAbs ++ rest =
        signChars neg ++ c :: (t ++ (pointFrac (stripZeros (fracDigits 5 (n % 10 ^ 5))) ++
          'e' :: (if x < 0 then '-' else '+') :: (expDigits x.natAbs ++ rest))) := by
      unfold generalBody
      rw [hct]
      simp
    rw [hshape, extractDouble_signed neg c _ hc]
    have := extractUnsigned_exp neg (natDigits (n / 10 ^ 5))
      (stripZeros (fracDigits 5 (n % 10 ^ 5))) (expDigits x.natAbs) rest
      (if x < 0 then '-' else '+') (isDigit_natDigits _) (natDigits_ne_nil _)
      (isDigit_stripZeros _ (isDigit_fracDigits _ _))
      (by split <;> simp) (isDigit_expDigits _) (expDigits_ne_nil _) hrest
    rw [hct] at this
    rw [List.cons_append] at this
    rw [this, ← hct, hD, digitsValue_expDigits]
    congr 1
    by_cases hx : x < 0
    · rw [if_pos hx, if_pos rfl]
      omega
    · rw [if_neg hx, if_neg (by decide)]
      omega
  · rw [← hD]; exact hz2

/-- **Reading back one number.** A finite binary64 value written in the default
format and followed by the end of the line reads back as the `double` nearest
to its six significant digits, and the extraction stops in front of the line
end. -/
theorem extractDouble_fmtDefault (x : Double) (rest : List Char)
    (hx : x.isStorable = true) (hrest : atLineEnd rest = true) :
    extractDouble (fmtDefault x ++ rest) = some (x.sixDigitValue, rest) := by
  cases x with
  | nan => simp [Double.isStorable, Double.isFinite] at hx
  | inf n => simp [Double.isStorable, Double.isFinite] at hx
  | finite neg m e =>
    simp only [Double.isStorable, Double.isFinite, Double.isBinary64, Bool.true_and,
      Bool.and_eq_true, decide_eq_true_eq] at hx
    obtain ⟨⟨hm, he1⟩, he2⟩ := hx
    by_cases hm0 : m = 0
    · subst hm0
      have h1 : fmtDefault (Double.finite neg 0 e) ++ rest = signChars neg ++ '0' :: rest := by
        simp [fmtDefault]
      rw [h1, extractDouble_signed neg '0' rest (by decide)]
      have h2 := extractUnsigned_plain neg ['0'] [] rest (by simp; decide) (by simp)
        (by simp) hrest
      simp only [pointFrac, List.nil_append, List.singleton_append, List.append_nil] at h2
      rw [h2]
      have h3 : digitsValue ['0'] = 0 := by decide
      rw [h3]
      simp [convert, ofDecimal, roundToDouble, Double.sixDigitValue]
    · have hden : 0 < 2 ^ (-e).toNat := by positivity
      have hnum : 0 < m * 2 ^ e.toNat := Nat.mul_pos (by omega) (by positivity)
      have hmax : m * 2 ^ e.toNat ≤ maxFinite * 2 ^ (-e).toNat := by
        unfold maxFinite
        have hm' : m ≤ 2 ^ 53 - 1 := by omega
        have hp : 2 ^ e.toNat ≤ 2 ^ 971 := Nat.pow_le_pow_right (by decide) (by omega)
        calc m * 2 ^ e.toNat ≤ (2 ^ 53 - 1) * 2 ^ 971 := Nat.mul_le_mul hm' hp
          _ = (2 ^ 53 - 1) * 2 ^ 971 * 1 := by ring
          _ ≤ (2 ^ 53 - 1) * 2 ^ 971 * 2 ^ (-e).toNat :=
            Nat.mul_le_mul_left _ (Nat.one_le_pow _ _ (by decide))
      have hfin := ofDecimal_sixDigits_isFinite neg _ _ hnum hden hmax
      have hval : (Double.finite neg m e).sixDigitValue =
          ofDecimal neg (sixDigits (m * 2 ^ e.toNat) (2 ^ (-e).toNat))
            (decimalExponent (m * 2 ^ e.toNat) (2 ^ (-e).toNat) - 5) := by
        simp [Double.sixDigitValue, hm0]
      have hfmt : fmtDefault (Double.finite neg m e) =
          if -4 ≤ decimalExponent (m * 2 ^ e.toNat) (2 ^ (-e).toNat) ∧
              decimalExponent (m * 2 ^ e.toNat) (2 ^ (-e).toNat) < 6 then
            signChars neg ++ generalBody
              (5 - decimalExponent (m * 2 ^ e.toNat) (2 ^ (-e).toNat)).toNat
              (sixDigits (m * 2 ^ e.toNat) (2 ^ (-e).toNat))
          else
            signChars neg ++ generalBody 5 (sixDigits (m * 2 ^ e.toNat) (2 ^ (-e).toNat)) ++
              'e' :: (if decimalExponent (m * 2 ^ e.toNat) (2 ^ (-e).toNat) < 0 then '-'
                else '+') ::
                expDigits (decimalExponent (m * 2 ^ e.toNat) (2 ^ (-e).toNat)).natAbs := by
        simp only [fmtDefault, if_neg hm0]
      rw [hval, hfmt]
      generalize sixDigits (m * 2 ^ e.toNat) (2 ^ (-e).toNat) = n at hfin ⊢
      generalize decimalExponent (m * 2 ^ e.toNat) (2 ^ (-e).toNat) = x at hfin ⊢
      by_cases hfix : -4 ≤ x ∧ x < 6
      · rw [if_pos hfix]
        obtain ⟨z, hext, hz, hzd⟩ := extract_generalBody neg (5 - x).toNat n rest hrest
        rw [hext]
        have hexp : (z : Int) - ((5 - x).toNat : Int) = (x - 5) + (z : Int) := by omega
        have hsc := ofDecimal_scale neg (n / 10 ^ z) z (x - 5)
        rw [hz] at hsc
        rw [hexp, convert_of_isFinite _ _ _ _ (by rw [hsc]; exact hfin), hsc]
      · rw [if_neg hfix]
        obtain ⟨z, hext, hz⟩ := extract_generalBody_exp neg n x rest hrest
        have hassoc : signChars neg ++ generalBody 5 n ++
              'e' :: (if x < 0 then '-' else '+') :: expDigits x.natAbs ++ rest =
            signChars neg ++ generalBody 5 n ++
              ('e' :: (if x < 0 then '-' else '+') :: expDigits x.natAbs) ++ rest := by
          simp
        rw [← hassoc, hext]
        have hexp : x + (z : Int) - 5 = (x - 5) + (z : Int) := by omega
        have hsc := ofDecimal_scale neg (n / 10 ^ z) z (x - 5)
        rw [hz] at hsc
        rw [hexp, convert_of_isFinite _ _ _ _ (by rw [hsc]; exact hfin), hsc]

/-! ## Reading back a saved catalog -/

theorem getline_line (name rest : List Char) (h : '\n' ∉ name) :
    getline (name ++ '\n' :: rest) = (name, rest) := by
  have hall : ∀ c ∈ name, (fun c => c != '\n') c = true := by
    intro c hc
    have : c ≠ '\n' := fun hcn => h (hcn ▸ hc)
    simpa using this
  unfold getline
  rw [List.takeWhile_append_of_pos hall, List.dropWhile_append_of_pos hall]
  simp

/-- One record read back from its three lines. -/
theorem loadFromFile_saveToFile (p : Product) (rest : List Char) (hline : '\n' ∉ p.name)
    (hbase : p.basePrice.isStorable = true) (hspecial : p.specialValue.isStorable = true) :
    Product.loadFromFile (p.saveToFile ++ rest) = some (p.reloaded, rest) := by
  have hshape : p.saveToFile ++ rest =
      p.name ++ '\n' :: (fmtDefault p.basePrice ++
        '\n' :: (fmtDefault p.specialValue ++ '\n' :: rest)) := by
    simp [Product.saveToFile]
  unfold Product.loadFromFile
  rw [hshape, getline_line _ _ hline]
  simp only
  rw [extractDouble_fmtDefault _ _ hbase (by rfl)]
  simp only
  rw [extractDouble_newline, extractDouble_fmtDefault _ _ hspecial (by rfl)]
  simp [ignoreLine, Product.reloaded]

theorem saveToFile_ne_nil (p : Product) (rest : List Char) :
    ∃ ch cs, p.saveToFile ++ rest = ch :: cs := by
  cases h : p.saveToFile ++ rest with
  | nil =>
    have := congrArg List.length h
    simp [Product.saveToFile] at this
  | cons ch cs => exact ⟨ch, cs, rfl⟩

theorem loadLoop_catalogText (c : List Product) (fuel : Nat) (acc : List Product)
    (hfuel : c.length < fuel) (hline : ∀ p ∈ c, '\n' ∉ p.name)
    (hnum : ∀ p ∈ c, p.basePrice.isStorable = true ∧ p.specialValue.isStorable = true) :
    loadLoop fuel (catalogText c) acc = some (acc ++ c.map Product.reloaded) := by
  induction c generalizing fuel acc with
  | nil =>
    cases fuel with
    | zero => simp at hfuel
    | succ fuel => simp [loadLoop, catalogText]
  | cons p c ih =>
    cases fuel with
    | zero => simp at hfuel
    | succ fuel =>
      obtain ⟨ch, cs, hcs⟩ := saveToFile_ne_nil p (catalogText c)
      have hload := loadFromFile_saveToFile p (catalogText c)
        (hline p (by simp)) (hnum p (by simp)).1 (hnum p (by simp)).2
      simp only [catalogText, loadLoop]
      rw [hcs] at hload ⊢
      simp only [hload]
      rw [ih fuel (acc ++ [p.reloaded]) (by simpa using hfuel)
        (fun q hq => hline q (List.mem_cons_of_mem _ hq))
        (fun q hq => hnum q (List.mem_cons_of_mem _ hq))]
      simp

theorem length_le_catalogText (c : List Product) : c.length ≤ (catalogText c).length := by
  induction c with
  | nil => simp
  | cons p c ih =>
    simp only [catalogText, List.length_cons, List.length_append, Product.saveToFile]
    omega

/-- **C9 (amended).** For every catalog whose names hold no newline and whose
base prices and special values are finite binary64 numbers (all records
`addProduct` can accept are such), the empty catalog included, loading the
file written by `saveCatalogToFile` into an empty list succeeds and yields the
same number of records in the same order with the same names; each base price
and each special value comes back as the `double` nearest to the original
rounded to six significant decimal digits, the precision of the file. For the
empty catalog the result is the empty list. -/
theorem loadCatalog_saveCatalog (c : List Product) (fs : Files)
    (hline : ∀ p ∈ c, '\n' ∉ p.name)
    (hnum : ∀ p ∈ c, p.basePrice.isStorable = true ∧ p.specialValue.isStorable = true)
    (hw : fs.catalogWritable = true) :
    loadCatalogFromFile [] (saveCatalogToFile c fs) = some (c.map Product.reloaded) ∧
    (c.map Product.reloaded).length = c.length ∧
    (c.map Product.reloaded).map Product.name = c.map Product.name ∧
    (c.map Product.reloaded).map Product.basePrice =
      c.map (fun p => p.basePrice.sixDigitValue) ∧
    (c.map Product.reloaded).map Product.specialValue =
      c.map (fun p => p.specialValue.sixDigitValue) ∧
    loadCatalogFromFile [] (saveCatalogToFile [] fs) = some [] := by
  refine ⟨?_, by simp, ?_, ?_, ?_, ?_⟩
  · unfold loadCatalogFromFile saveCatalogToFile
    rw [if_pos hw]
    simp only
    rw [loadLoop_catalogText c _ [] (Nat.lt_succ_of_le (length_le_catalogText c)) hline hnum]
    simp
  · simp [Product.reloaded, Product.new, Function.comp_def]
  · simp [Product.reloaded, Product.new, Function.comp_def]
  · simp [Product.reloaded, Product.new, Function.comp_def]
  · simp [loadCatalogFromFile, saveCatalogToFile, hw, catalogText, loadLoop]

/-- **C9 (counterexample).** The record `ak` with base price 1234567 and special
value 0.5 is accepted by `addProduct` on the empty catalog and saved as the
lines `ak`, `1.23457e+06`, `0.5`; loading that file gives the base price
1234570, shown as `1234570.00` where the original is shown as `1234567.00`:
the base price is not preserved at two decimals. -/
theorem reload_changes_basePrice :
    (addProduct ['a', 'k'] bigPrice half freshState).1 = Outcome.added ∧
    bigPriceState.productCatalog = [Product.new ['a', 'k'] bigPrice half] ∧
    bigPrice.isStorable = true ∧
    Double.le Double.zero bigPrice = true ∧
    bigPriceState.files.catalogFile = some "ak\n1.23457e+06\n0.5\n".toList ∧
    loadCatalogFromFile [] bigPriceState.files =
      some [Product.new ['a', 'k'] (ofDecimal false 1234570 0) half] ∧
    fmtFixed 2 bigPrice = "1234567.00".toList ∧
    fmtFixed 2 (ofDecimal false 1234570 0) = "1234570.00".toList ∧
    (loadCatalogFromFile [] bigPriceState.files).map listProducts ≠
      some (listProducts bigPriceState.productCatalog) := by
  decide!

/-- Witness for C9: the catalog `ak`, `awp` saved to fresh files and loaded. -/
theorem loadCatalog_saveCatalog_witness :
    (∀ p ∈ twoNamesState.productCatalog, '\n' ∉ p.name) ∧
    (∀ p ∈ twoNamesState.productCatalog,
      p.basePrice.isStorable = true ∧ p.specialValue.isStorable = true) ∧
    loadCatalogFromFile [] (saveCatalogToFile twoNamesState.productCatalog freshFiles) =
      some (twoNamesState.productCatalog.map Product.reloaded) :=
  ⟨by decide!, by decide!,
    (loadCatalog_saveCatalog twoNamesState.productCatalog freshFiles (by decide!) (by decide!)
      (by decide!)).1⟩

/-! ## Witnesses -/

/-- Witness for C3 on the empty catalog: the special value `1.0` is accepted
(by the theorem), and so is `0.0`; `-0.01` and `1.01` are rejected with the
state unchanged; after `ak` with `0.5`, a second `ak` with `0.50001` (the same
four decimals) is rejected with the state unchanged. -/
theorem addProduct_changes_iff_witness :
    Double.one.isNaN = false ∧
    (addProduct ['a', 'k'] hundred Double.one freshState).2.productCatalog ≠
      freshState.productCatalog ∧
    (addProduct ['a', 'k'] hundred (ofDecimal false 0 0) freshState).1 = Outcome.added ∧
    addProduct ['a', 'k'] hundred (ofDecimal true 1 (-2)) freshState =
      (Outcome.invalidSpecialValue, freshState) ∧
    addProduct ['a', 'k'] hundred (ofDecimal false 101 (-2)) freshState =
      (Outcome.invalidSpecialValue, freshState) ∧
    addProduct ['a', 'k'] thirty (ofDecimal false 50001 (-5))
        (addProduct ['a', 'k'] hundred half freshState).2 =
      (Outcome.duplicate, (addProduct ['a', 'k'] hundred half freshState).2) :=
  ⟨by decide, (addProduct_changes_iff ['a', 'k'] hundred Double.one freshState
    (by decide)).1.mpr ⟨⟨by decide!, by decide!⟩, by decide!⟩,
    by decide!, by decide!, by decide!, by decide!⟩

/-- Witness for C4: adding `awp` after `ak`. -/
theorem addProduct_appends_witness :
    (addProduct ['a', 'w', 'p'] thirty Double.one
        (addProduct ['a', 'k'] hundred half rateThirtyState).2).2.productCatalog =
      (addProduct ['a', 'k'] hundred half rateThirtyState).2.productCatalog ++
        [Product.new ['a', 'w', 'p'] thirty Double.one] :=
  (addProduct_appends ['a', 'w', 'p'] thirty Double.one
    (addProduct ['a', 'k'] hundred half rateThirtyState).2
    (by decide!) (by decide!) (by decide!) (by decide!)).2.1

/-- Witness for C5: removing `ak` from the catalog `ak`, `awp`. -/
theorem removeProduct_single_witness :
    (matching ['a', 'k'] twoNamesState).length = 1 ∧
    ∃ before target after,
      twoNamesState.productCatalog = before ++ target :: after ∧
      target.name = ['a', 'k'] ∧
      (∀ q ∈ before ++ after, q.name ≠ ['a', 'k']) ∧
      (removeProduct ['a', 'k'] 0 twoNamesState).1 = Outcome.removed ∧
      (removeProduct ['a', 'k'] 0 twoNamesState).2.productCatalog = before ++ after ∧
      (removeProduct ['a', 'k'] 0 twoNamesState).2.productCatalog.length + 1 =
        twoNamesState.productCatalog.length :=
  ⟨by decide!, removeProduct_single ['a', 'k'] 0 twoNamesState (by decide!)⟩

/-- Witness for C7: the number 3 when two records have the name. -/
theorem removeProduct_rejected_witness :
    (2 ≤ (matching ['a'] twoWearsState).length ∧ (matching ['a'] twoWearsState).length < 3) ∧
    (removeProduct ['a'] 3 twoWearsState).2 = twoWearsState :=
  ⟨by decide!, (removeProduct_rejected ['a'] 3 twoWearsState
    (Or.inr ⟨by decide!, Or.inr (by decide!)⟩)).1⟩

/-- Witness for C10: the number 2 when two records have the name. -/
theorem removeProduct_never_fails_witness :
    (matching ['a'] twoWearsState).length = 2 ∧
    (removeProduct ['a'] 2 twoWearsState).1 = Outcome.removed :=
  ⟨by decide!, (removeProduct_never_fails ['a'] 2 twoWearsState (by decide!)
    (fun _ => by decide!)).1⟩

/-- Witness for C8: selling `ak` (base price 100) at the rate 30. -/
theorem sellProduct_prices_witness :
    matching ['a', 'k'] twoNamesState = [Product.new ['a', 'k'] hundred half] ∧
    ∃ p,
      sellProduct ['a', 'k'] 0 twoNamesState = SellResult.displayed p p.displayPrices ∧
      p.displayPrices.drop 3 =
        ["Selling price for CSFloat: $113.00000".toList,
          "Selling price for ByNoGame: 3690.00000TL".toList] := by
  refine ⟨by decide!, ?_⟩
  obtain ⟨p, h1, _, _, _, _, _, _, h8, h9⟩ :=
    sellProduct_prices ['a', 'k'] 0 twoNamesState (Product.new ['a', 'k'] hundred half)
      (Or.inl (by decide!))
  refine ⟨p, h1, ?_⟩
  obtain ⟨ha, hb⟩ := h9 rfl (by decide!)
  rw [h8, ha, hb]
  decide

end CS2
